import Mathlib

/-
  Verification development for the lazy array access layer of Lunagis2
  (src/unnamed/part_001: SliceCache, packBinaryData, NetCDFLazyDataset,
  NpyLazyDataset).

  Modelling conventions:
  * JS strings (cache keys, file identifiers, variable names) are modelled
    as lists of characters (`List Char`), so string-prefix reasoning is
    list-prefix reasoning.
  * Typed-array element values are modelled as integers (`Int`).  IEEE-754
    rounding of Float32/Float64 values is outside the scope of this shallow
    embedding; the datasets concerned carry flags and small counters, and
    every claim checked here is about representations, layouts and indices,
    not about float rounding.  JS truthiness `if (data[i])` on a number is
    modelled as `≠ 0` (NaN, which is falsy in JS yet non-zero, has no
    counterpart in the integer model).
  * The source tracks the cache budget in megabytes using double-precision
    numbers (`byteLength / (1024*1024)` accumulated additively).  Because a
    byteLength below 2^53 divided by the power of two 2^20 is exact in double
    precision, and the accumulated sums stay far below 2^33, every comparison
    the source makes on `currentSizeMB` equals the corresponding comparison
    on exact byte counts.  The model therefore tracks `currentSize` in bytes
    (an `Int`) against a budget of 256 * 2^20 bytes.
  * `Date.now()` is modelled by an explicit `now : Nat` argument to each
    cache operation; monotonicity of the clock becomes an explicit
    hypothesis where a claim needs it.
-/

namespace Lunagis

/-- Cache keys and file identifiers: JS strings as character lists. -/
abbrev Key := List Char

/-- Decimal rendering of a natural number, the model of the JS template
substitution of `timeIndex` in `` `${fileId}:${timeIndex}` ``.  Fuel-based
structural recursion (`fuel = n + 1` always suffices because `n / 10 < n`
for `n ≥ 10`), so terms reduce inside the kernel. -/
def natCharsAux : Nat → Nat → List Char
  | 0, _ => []
  | fuel + 1, n =>
    if n < 10 then [Nat.digitChar n]
    else natCharsAux fuel (n / 10) ++ [Nat.digitChar (n % 10)]

/-- Decimal rendering of a natural number as a character list. -/
def natChars (n : Nat) : List Char := natCharsAux (n + 1) n

/-- Model of the `SliceData` union
`Float32Array | Uint8Array | Int16Array | Uint32Array` from part_001 line 6.
The constructor records which typed-array representation the data is in;
element values are integers (see the header comment). -/
inductive SliceData where
  | f32 (vals : List Int)
  | u8 (vals : List Int)
  | i16 (vals : List Int)
  | u32 (vals : List Int)
deriving DecidableEq

/-- The `byteLength` of a typed array: element count times bytes per element. -/
def SliceData.byteLength : SliceData → Nat
  | .f32 v => 4 * v.length
  | .u8 v => v.length
  | .i16 v => 2 * v.length
  | .u32 v => 4 * v.length

/-- One cache entry value: `{ data: SliceData; lastAccess: number }`
(part_001 line 21), generic in the data type. -/
structure CacheEntry (α : Type) where
  data : α
  lastAccess : Nat
deriving DecidableEq

/-- The mutable state of `SliceCache` (part_001 lines 20–22): the `Map`
is modelled as an association list in insertion order (JS `Map` iterates
in insertion order; `set` on an existing key updates in place), and
`currentSizeMB` is tracked in exact bytes (see header comment). -/
structure CacheState (α : Type) where
  cache : List (Key × CacheEntry α)
  currentSize : Int
deriving DecidableEq

/-- Source constant `SLICE_CACHE_SIZE_MB = 256` (part_001 line 18), expressed in bytes. -/
def SLICE_CACHE_SIZE_B : Int := 256 * 1024 * 1024

namespace SliceCache

/-- The cache starts empty (part_001 lines 21–22). -/
def empty (α : Type) : CacheState α := ⟨[], 0⟩

/-- Model of `getKey(fileId, timeIndex)`: `` `${fileId}:${timeIndex}` ``
(part_001 lines 24–26). -/
def getKey (fileId : Key) (timeIndex : Nat) : Key :=
  fileId ++ ':' :: natChars timeIndex

/-- JS `Map.prototype.set`: overwrite in place if the key is present
(keeping its position in iteration order), otherwise append. -/
def mapSet {α : Type} (m : List (Key × CacheEntry α)) (k : Key)
    (v : CacheEntry α) : List (Key × CacheEntry α) :=
  if m.any (fun p => p.1 = k) then
    m.map (fun p => if p.1 = k then (k, v) else p)
  else
    m ++ [(k, v)]

/-- JS `Map.prototype.get`. -/
def mapGet {α : Type} (m : List (Key × CacheEntry α)) (k : Key) :
    Option (CacheEntry α) :=
  (m.find? (fun p => p.1 = k)).map (·.2)

/-- Sum of the byte sizes of all entries, under byte-size function `bs`. -/
def sumBytes {α : Type} (bs : α → Nat) (m : List (Key × CacheEntry α)) : Nat :=
  (m.map (fun p => bs p.2.data)).sum

/-- The scan of `evictLRU` (part_001 lines 52–60): fold over the map in
iteration order keeping the first entry whose `lastAccess` is strictly
below the best so far (`oldestTime` starts at `Infinity`, modelled by the
`none` accumulator). -/
def findOldestAux {α : Type} :
    Option (Key × Nat) → List (Key × CacheEntry α) → Option (Key × Nat)
  | acc, [] => acc
  | none, (k, e) :: rest => findOldestAux (some (k, e.lastAccess)) rest
  | some (k0, t0), (k, e) :: rest =>
    if e.lastAccess < t0 then findOldestAux (some (k, e.lastAccess)) rest
    else findOldestAux (some (k0, t0)) rest

/-- Model of `evictLRU()` (part_001 lines 51–67): find the entry with the oldest
`lastAccess`; if its key is truthy (a JS string is falsy exactly when
empty), subtract its byte size from the running total and delete it. -/
def evictLRUStep {α : Type} (bs : α → Nat) (s : CacheState α) : CacheState α :=
  match findOldestAux none s.cache with
  | none => s
  | some (k, _) =>
    if k = [] then s
    else
      match mapGet s.cache k with
      | none => s
      | some e =>
        { cache := s.cache.filter (fun p => ¬ p.1 = k),
          currentSize := s.currentSize - (bs e.data : Int) }

/-- The `while` loop of `set` (part_001 lines 43–45), with explicit fuel.
On every state whose keys are non-empty strings each iteration removes one
entry, so fuel `s.cache.length` makes the fuelled loop equal to the source's
unbounded loop (which exits as soon as the budget condition fails or the
cache is empty). -/
def evictLoop {α : Type} (bs : α → Nat) (sz : Nat) :
    Nat → CacheState α → CacheState α
  | 0, s => s
  | fuel + 1, s =>
    if s.currentSize + (sz : Int) > SLICE_CACHE_SIZE_B ∧ s.cache.length > 0 then
      evictLoop bs sz fuel (evictLRUStep bs s)
    else s

/-- Model of `set(fileId, timeIndex, data)` (part_001 lines 38–49): evict while the
new entry would push the running total over the budget, then insert the new
entry at `Date.now()` = `now` and add its size to the running total. -/
def setOp {α : Type} (bs : α → Nat) (fileId : Key) (timeIndex : Nat)
    (d : α) (now : Nat) (s : CacheState α) : CacheState α :=
  let key := getKey fileId timeIndex
  let sz := bs d
  let s1 := evictLoop bs sz s.cache.length s
  { cache := mapSet s1.cache key ⟨d, now⟩,
    currentSize := s1.currentSize + (sz : Int) }

/-- Model of `get(fileId, timeIndex)` (part_001 lines 28–36): on a hit, set the
entry's `lastAccess` to `Date.now()` = `now` in place and return its data;
on a miss, return `undefined` and leave the state untouched. -/
def getOp {α : Type} (fileId : Key) (timeIndex : Nat) (now : Nat)
    (s : CacheState α) : CacheState α × Option α :=
  let key := getKey fileId timeIndex
  match mapGet s.cache key with
  | some e =>
    ({ s with
        cache := s.cache.map (fun p =>
          if p.1 = key then (p.1, ⟨e.data, now⟩) else p) },
      some e.data)
  | none => (s, none)

/-- Model of `clearForFile(fileId)` (part_001 lines 69–76): delete every entry whose
key starts with `` `${fileId}:` `` and subtract the deleted sizes from the
running total. -/
def clearForFile {α : Type} (bs : α → Nat) (fileId : Key)
    (s : CacheState α) : CacheState α :=
  { cache := s.cache.filter (fun p => ¬ (fileId ++ [':']).isPrefixOf p.1),
    currentSize := s.currentSize -
      (sumBytes bs (s.cache.filter (fun p =>
        (fileId ++ [':']).isPrefixOf p.1)) : Int) }

/-- One `set` call as data: `set(fileId, timeIndex, data)` at clock `now`. -/
structure PutOp (α : Type) where
  fileId : Key
  timeIndex : Nat
  data : α
  now : Nat

/-- Run a sequence of `set` calls from a given state. -/
def runPuts {α : Type} (bs : α → Nat) (s : CacheState α) :
    List (PutOp α) → CacheState α
  | [] => s
  | op :: rest => runPuts bs (setOp bs op.fileId op.timeIndex op.data op.now s) rest

end SliceCache

/-- JS truthiness of a numeric cell value: `if (data[i])` is taken iff the
value is non-zero (part_001 lines 110–117, 123). -/
def truthy (v : Int) : Bool := v ≠ 0

/-- One byte of the unrolled main loop of `packBinaryData`
(part_001 lines 108–119): the eight conditional `byte |= 2^k` updates for
inputs `i .. i+7`. -/
def packGroup (data : List Int) (i : Nat) : Nat :=
  (if truthy (data.getD i 0) then 1 else 0) |||
  (if truthy (data.getD (i + 1) 0) then 2 else 0) |||
  (if truthy (data.getD (i + 2) 0) then 4 else 0) |||
  (if truthy (data.getD (i + 3) 0) then 8 else 0) |||
  (if truthy (data.getD (i + 4) 0) then 16 else 0) |||
  (if truthy (data.getD (i + 5) 0) then 32 else 0) |||
  (if truthy (data.getD (i + 6) 0) then 64 else 0) |||
  (if truthy (data.getD (i + 7) 0) then 128 else 0)

/-- The remainder loop of `packBinaryData` (part_001 lines 122–128): for
every `i` in `[start, length)` with a truthy value, OR `1 << (i & 7)` into
the byte at `i >>> 3`.  Because `start` is `length - length % 8` (a multiple
of 8) and `length - start < 8`, all these writes land in the single final
byte, whose value this function computes. -/
def packRemainder (data : List Int) (start length : Nat) : Nat :=
  (List.range (length - start)).foldl
    (fun acc j =>
      if truthy (data.getD (start + j) 0) then acc ||| (1 <<< ((start + j) % 8))
      else acc) 0

/-- Model of `packBinaryData` (part_001 lines 100–131): allocate `ceil(length/8)`
bytes; the main loop fills bytes `0 .. mainLoopLimit/8 - 1` from groups of
eight inputs; the remainder loop fills the final byte (if any inputs are
left over). -/
def packBinaryData (data : List Int) : List Nat :=
  let length := data.length
  let mainLoopLimit := length - length % 8
  (List.range (mainLoopLimit / 8)).map (fun b => packGroup data (8 * b)) ++
    (if length % 8 = 0 then [] else [packRemainder data mainLoopLimit length])

/-- Model of the raw typed array returned by a backend bulk read (for the
hierarchical backend, the result of `this.dataset.slice(start, count)` from
h5wasm, an external collaborator).  The constructor records the on-disk
element type of the returned array; element values are integers (see the
header comment). -/
inductive RawData where
  | u8 (vals : List Int)
  | i8 (vals : List Int)
  | i16 (vals : List Int)
  | i32 (vals : List Int)
  | f32 (vals : List Int)
  | f64 (vals : List Int)
deriving DecidableEq

/-- Element values of a raw array, representation forgotten. -/
def RawData.vals : RawData → List Int
  | .u8 v => v
  | .i8 v => v
  | .i16 v => v
  | .i32 v => v
  | .f32 v => v
  | .f64 v => v

/-- JS `ToUint8` conversion applied by `new Uint8Array(rawData)` to each
element: reduce modulo 2^8 into `[0, 255]`. -/
def toUint8 (v : Int) : Int := v % 256

/-- JS `ToInt16` conversion applied by `new Int16Array(rawData)` to each
element: reduce modulo 2^16 into `[-2^15, 2^15)`. -/
def toInt16 (v : Int) : Int := (v + 32768) % 65536 - 32768

/-- Conversion applied by `new Float32Array(rawData)` to each element: in
the integer value model this is the identity (IEEE-754 rounding of values
beyond 2^24 is outside the scope of the embedding; see header comment). -/
def toFloat32 (v : Int) : Int := v

/-- The representation of a decoded slice (which typed-array constructor
carries it). -/
inductive Rep where
  | f32
  | u8
  | i16
  | u32
deriving DecidableEq

/-- Representation tag of a decoded slice. -/
def SliceData.rep : SliceData → Rep
  | .f32 _ => .f32
  | .u8 _ => .u8
  | .i16 _ => .i16
  | .u32 _ => .u32

/-- Decoded element values of a slice. -/
def SliceData.vals : SliceData → List Int
  | .f32 v => v
  | .u8 v => v
  | .i16 v => v
  | .u32 v => v

/-- Variable names that the quantization rules key on (part_001 lines
169–183). -/
def illuminationVar : Key := "illumination".toList

/-- Variable name `orbiter_visibility`. -/
def orbiterVisibilityVar : Key := "orbiter_visibility".toList

/-- Variable name `dte_visibility`. -/
def dteVisibilityVar : Key := "dte_visibility".toList

/-- Variable name `night_flag`. -/
def nightFlagVar : Key := "night_flag".toList

/-- Variable name `darkness_duration`. -/
def darknessDurationVar : Key := "darkness_duration".toList

/-- Model of the quantization step of `NetCDFLazyDataset.getSlice`
(part_001 lines 166–197): dispatch on `dataVarName`; in each branch pass
the raw array through unchanged when it is already in the target
representation, otherwise convert element by element (`new Uint8Array(...)`
etc.).  For the bit-granularity branch the input is used as-is when it is
a `Float32Array`, `Int8Array` or `Uint8Array` and is otherwise first
converted with `new Float32Array(...)`, then bit-packed. -/
def netcdfDecode (dataVarName : Key) (raw : RawData) : SliceData :=
  if dataVarName = illuminationVar ∨ dataVarName = orbiterVisibilityVar then
    match raw with
    | .u8 v => .u8 v
    | r => .u8 (r.vals.map toUint8)
  else if dataVarName = dteVisibilityVar ∨ dataVarName = nightFlagVar then
    let input : List Int :=
      match raw with
      | .f32 v => v
      | .i8 v => v
      | .u8 v => v
      | r => r.vals.map toFloat32
    .u8 ((packBinaryData input).map Int.ofNat)
  else if dataVarName = darknessDurationVar then
    match raw with
    | .i16 v => .i16 v
    | r => .i16 (r.vals.map toInt16)
  else
    match raw with
    | .f32 v => .f32 v
    | r => .f32 (r.vals.map toFloat32)

/-- Model of the conversion step of `NpyLazyDataset.getSlice`
(part_001 lines 300–305): the loaded data is passed through when it is
already a `Float32Array` and is otherwise converted with
`new Float32Array(data)`. -/
def npyConvert (data : RawData) : SliceData :=
  match data with
  | .f32 v => .f32 v
  | r => .f32 (r.vals.map toFloat32)

/-- Model of `NetCDFLazyDataset.getSlice` (part_001 lines 146–202).
The backend hyperslab read `this.dataset.slice([t,0,0],[1,H,W])` is an
external collaborator (h5wasm) and is abstracted as a function from the
time index to either an exception `ε` or a raw array; the `await
yieldToMain()` pacing calls have no observable effect in this model.  The
single clock value `now` is used for both the cache probe and the cache
insertion of one call.  Note the source performs no range check on
`timeIndex` before issuing the read. -/
def netcdfGetSlice {ε : Type} (filename dataVarName : Key)
    (backend : Nat → Except ε RawData) (timeIndex now : Nat)
    (s : CacheState SliceData) :
    CacheState SliceData × Except ε SliceData :=
  match SliceCache.getOp filename timeIndex now s with
  | (s', some cached) => (s', .ok cached)
  | (_, none) =>
    match backend timeIndex with
    | .error e => (s, .error e)
    | .ok rawData =>
      let resultData := netcdfDecode dataVarName rawData
      (SliceCache.setOp SliceData.byteLength filename timeIndex resultData now s,
        .ok resultData)

/-- Model of `NetCDFLazyDataset.getPixelTimeSeries` (part_001 lines
208–240), starting from the raw array the backend returned for the
hyperslab request `start=(0,y,x), count=(time,1,1)`: if its length is
`time`, convert it directly (`Array.from`); otherwise, if its length is
`time*height*width`, read the pixel through the time-major stride; any
other length gets the best-effort `Array.from` conversion.  No branch can
throw. -/
def netcdfPixelSeries (time height width y x : Nat) (raw : List Int) :
    List Int :=
  if raw.length = time then raw
  else
    let stride := height * width
    let offset := y * width + x
    if raw.length = time * stride then
      (List.range time).map (fun t => raw.getD (t * stride + offset) 0)
    else raw

/-- Dimensions record of `StreamingNpyMetadata` as used by part_001
(`metadata.dimensions`). -/
structure NpyDimensions where
  time : Nat
  height : Nat
  width : Nat

/-- The fields of `StreamingNpyMetadata` that part_001 reads
(`dimensions`, `headerSize`, `bytesPerValue`; the element type code only
selects which typed-array view decodes the bytes, which the integer value
model absorbs). -/
structure StreamingNpyMetadata where
  dimensions : NpyDimensions
  headerSize : Nat
  bytesPerValue : Nat

/-- Modelled from the spec: `loadNpyTimeSlice` lives in
`services/streamingNpyParser`, which is not under `src/`.  Spec §4.3: for
a time-major flat dataset, slice `t` is the contiguous run of
`height*width` elements starting at byte offset
`dataOffset + t*height*width*elementSize`, read via the external byte-range
reader and decoded elementwise.  `file` maps the byte offset of an
element-aligned read to the element value stored there. -/
def loadNpyTimeSlice (file : Nat → Int) (meta : StreamingNpyMetadata)
    (timeIndex : Nat) : List Int :=
  let hw := meta.dimensions.height * meta.dimensions.width
  (List.range hw).map (fun j =>
    file (meta.headerSize + (timeIndex * hw + j) * meta.bytesPerValue))

/-- Decoded values of `NpyLazyDataset.getSlice(t)` on a cache miss
(part_001 lines 296–309): the loaded slice, converted to `Float32Array`,
which in the integer value model leaves the element values unchanged. -/
def npyGetSliceVals (file : Nat → Int) (meta : StreamingNpyMetadata)
    (timeIndex : Nat) : List Int :=
  loadNpyTimeSlice file meta timeIndex

/-- Fixed batch size of `NpyLazyDataset.getPixelTimeSeries` (part_001
line 341). -/
def npyBatchSize : Nat := 50

/-- Model of the helper `readValue(t)` of `NpyLazyDataset.getPixelTimeSeries`
(part_001 lines 325–336), with the offset arithmetic copied verbatim.
Modelled from the spec for the parts outside `src/`: `readFileRange`
followed by `createTypedArray` (services/streamingFileReader) is the
external byte-range reader of spec §6 plus elementwise decoding, so the
one-element read at `offset` yields the element value stored at `offset`. -/
def npyReadValue (file : Nat → Int) (meta : StreamingNpyMetadata)
    (y x t : Nat) : Int :=
  let offset := meta.headerSize +
    (t * meta.dimensions.height * meta.dimensions.width * meta.bytesPerValue) +
    (y * meta.dimensions.width * meta.bytesPerValue) +
    (x * meta.bytesPerValue)
  file offset

/-- The time indices handled by the batch starting at `i = npyBatchSize * b`
(inner loop of part_001 lines 348–351: `j < batchSize && i + j < time`). -/
def npyBatch (time b : Nat) : List Nat :=
  (List.range (min npyBatchSize (time - npyBatchSize * b))).map
    (fun j => npyBatchSize * b + j)

/-- The strictly sequential batches of `NpyLazyDataset.getPixelTimeSeries`
(outer loop of part_001 line 343: `i = 0, 50, 100, ... < time`), each batch
issued concurrently and awaited in full before the next starts. -/
def npyBatches (time : Nat) : List (List Nat) :=
  (List.range ((time + npyBatchSize - 1) / npyBatchSize)).map (npyBatch time)

/-- Model of `NpyLazyDataset.getPixelTimeSeries` (part_001 lines 320–356):
allocate `results` of length `time`, then for each batch in order write
`results[t] = readValue(t)` for every `t` of the batch (within a batch the
sub-reads complete in unspecified order, but each lands in its designated
index, so the write set, and hence the final array, is deterministic). -/
def npyGetPixelTimeSeries (file : Nat → Int) (meta : StreamingNpyMetadata)
    (y x : Nat) : List Int :=
  let time := meta.dimensions.time
  (npyBatches time).foldl
    (fun results batch =>
      batch.foldl (fun r t => r.set t (npyReadValue file meta y x t)) results)
    (List.replicate time 0)

end Lunagis

namespace Lunagis

/-- The value of one unrolled-group byte as a function of the eight
truthiness bits. -/
def groupByteOf (b0 b1 b2 b3 b4 b5 b6 b7 : Bool) : Nat :=
  (if b0 then 1 else 0) ||| (if b1 then 2 else 0) ||| (if b2 then 4 else 0) |||
  (if b3 then 8 else 0) ||| (if b4 then 16 else 0) ||| (if b5 then 32 else 0) |||
  (if b6 then 64 else 0) ||| (if b7 then 128 else 0)

/-- Model of `NetCDFLazyDataset.getCachedSlice` (part_001 lines 204–206):
a pure probe of the shared cache — it only calls `globalSliceCache.get`,
never the backing reader. -/
def netcdfGetCachedSlice (filename : Key) (timeIndex now : Nat)
    (s : CacheState SliceData) : CacheState SliceData × Option SliceData :=
  SliceCache.getOp filename timeIndex now s

/-- Model of `NpyLazyDataset.getCachedSlice` (part_001 lines 316–318):
identical probe through the shared cache. -/
def npyGetCachedSlice (fileId : Key) (timeIndex now : Nat)
    (s : CacheState SliceData) : CacheState SliceData × Option SliceData :=
  SliceCache.getOp fileId timeIndex now s

namespace SliceCache

/-- The keys of a cache map, in iteration order. -/
def keysOf {α : Type} (m : List (Key × CacheEntry α)) : List Key :=
  m.map (·.1)

/-- States reachable by the source's cache operations: keys are unique (a
JS `Map` invariant), every key is a non-empty string (every key comes from
`getKey`, which appends a colon), and the running byte total is at least
the actual byte total (equal until a same-key overwrite leaks; see the C7
analysis). -/
def WellFormed {α : Type} (bs : α → Nat) (s : CacheState α) : Prop :=
  (keysOf s.cache).Nodup ∧ (∀ p ∈ s.cache, p.1 ≠ ([] : Key)) ∧
    (sumBytes bs s.cache : Int) ≤ s.currentSize

/-- Test fixture: an 80 MiB slice (83886080 one-byte cells), used to force
evictions against the 256 MiB budget. -/
def bigSlice : SliceData := .u8 (List.replicate 83886080 0)

/-- Test fixture for the cache-probe witness: two entries, dataset `u`
last accessed at 10 and dataset `v` at 3. -/
def probeState : CacheState SliceData :=
  ⟨[(getKey "u".toList 0, ⟨SliceData.u8 [5], 10⟩),
    (getKey "v".toList 0, ⟨SliceData.u8 [6], 3⟩)], 2⟩

end SliceCache

end Lunagis

namespace Lunagis


theorem packGroup_eq_groupByteOf (d : List Int) (s : Nat) :
    packGroup d s = groupByteOf (truthy (d.getD s 0)) (truthy (d.getD (s+1) 0))
      (truthy (d.getD (s+2) 0)) (truthy (d.getD (s+3) 0)) (truthy (d.getD (s+4) 0))
      (truthy (d.getD (s+5) 0)) (truthy (d.getD (s+6) 0)) (truthy (d.getD (s+7) 0)) := rfl

theorem groupByteOf_testBit (b0 b1 b2 b3 b4 b5 b6 b7 : Bool) :
    (groupByteOf b0 b1 b2 b3 b4 b5 b6 b7).testBit 0 = b0 ∧
    (groupByteOf b0 b1 b2 b3 b4 b5 b6 b7).testBit 1 = b1 ∧
    (groupByteOf b0 b1 b2 b3 b4 b5 b6 b7).testBit 2 = b2 ∧
    (groupByteOf b0 b1 b2 b3 b4 b5 b6 b7).testBit 3 = b3 ∧
    (groupByteOf b0 b1 b2 b3 b4 b5 b6 b7).testBit 4 = b4 ∧
    (groupByteOf b0 b1 b2 b3 b4 b5 b6 b7).testBit 5 = b5 ∧
    (groupByteOf b0 b1 b2 b3 b4 b5 b6 b7).testBit 6 = b6 ∧
    (groupByteOf b0 b1 b2 b3 b4 b5 b6 b7).testBit 7 = b7 := by
  cases b0 <;> cases b1 <;> cases b2 <;> cases b3 <;> cases b4 <;> cases b5 <;>
    cases b6 <;> cases b7 <;> decide

theorem packGroup_testBit (d : List Int) (s k : Nat) (hk : k < 8) :
    (packGroup d s).testBit k = truthy (d.getD (s + k) 0) := by
  rw [packGroup_eq_groupByteOf]
  have h := groupByteOf_testBit (truthy (d.getD s 0)) (truthy (d.getD (s+1) 0))
      (truthy (d.getD (s+2) 0)) (truthy (d.getD (s+3) 0)) (truthy (d.getD (s+4) 0))
      (truthy (d.getD (s+5) 0)) (truthy (d.getD (s+6) 0)) (truthy (d.getD (s+7) 0))
  interval_cases k <;> (try rw [Nat.add_zero]) <;> tauto

end Lunagis

namespace Lunagis

theorem packRemainder_fold_testBit (d : List Int) (start : Nat)
    (hs : start % 8 = 0) (r : Nat) (hr : r ≤ 8) (acc k : Nat) :
    ((List.range r).foldl
      (fun acc j =>
        if truthy (d.getD (start + j) 0) then acc ||| (1 <<< ((start + j) % 8))
        else acc) acc).testBit k
      = (acc.testBit k || (decide (k < r) && truthy (d.getD (start + k) 0))) := by
  induction r generalizing acc with
  | zero => simp
  | succ r ih =>
    rw [List.range_succ, List.foldl_append]
    have hr' : r ≤ 8 := Nat.le_of_succ_le hr
    have hmod : (start + r) % 8 = r := by omega
    simp only [List.foldl_cons, List.foldl_nil]
    by_cases ht : truthy (d.getD (start + r) 0)
    · rw [if_pos ht, Nat.testBit_lor, ih hr', hmod]
      have h1 : (1 <<< r).testBit k = decide (r = k) := by
        rw [Nat.shiftLeft_eq, Nat.one_mul, Nat.testBit_two_pow]
      rw [h1]
      by_cases hkr : k = r
      · subst hkr
        rw [List.getD_eq_getElem?_getD] at ht
        simp [ht, h1]
      · have h2 : (decide (k < r + 1) : Bool) = decide (k < r) := by
          simp only [decide_eq_decide]; omega
        simp [hkr, Ne.symm hkr, h2]
    · rw [if_neg ht, ih hr']
      by_cases hkr : k = r
      · subst hkr
        rw [List.getD_eq_getElem?_getD] at ht
        simp [ht]
      · have h2 : (decide (k < r + 1) : Bool) = decide (k < r) := by
          simp only [decide_eq_decide]; omega
        rw [h2]

theorem packRemainder_testBit (d : List Int) (start len k : Nat)
    (hs : start % 8 = 0) (hr : len - start ≤ 8) :
    (packRemainder d start len).testBit k
      = (decide (k < len - start) && truthy (d.getD (start + k) 0)) := by
  unfold packRemainder
  rw [packRemainder_fold_testBit d start hs (len - start) hr 0 k]
  simp

end Lunagis

namespace Lunagis

theorem packBinaryData_length (d : List Int) :
    (packBinaryData d).length = (d.length + 7) / 8 := by
  unfold packBinaryData
  by_cases h : d.length % 8 = 0 <;>
    simp [h, List.length_map, List.length_range] <;> omega

theorem packBinaryData_testBit (d : List Int) (i : Nat) (hi : i < d.length) :
    ((packBinaryData d).getD (i / 8) 0).testBit (i % 8)
      = truthy (d.getD i 0) := by
  have hunf : packBinaryData d =
      (List.range ((d.length - d.length % 8) / 8)).map (fun b => packGroup d (8 * b)) ++
        (if d.length % 8 = 0 then []
         else [packRemainder d (d.length - d.length % 8) d.length]) := rfl
  set len := d.length with hlen
  set mll := len - len % 8 with hmll
  have hmll8 : mll % 8 = 0 := by omega
  have hlenmap : ((List.range (mll / 8)).map (fun b => packGroup d (8 * b))).length
      = mll / 8 := by simp
  by_cases hcase : i < mll
  · -- main-loop byte
    have hcond : i / 8 < ((List.range (mll / 8)).map (fun b => packGroup d (8 * b))).length := by
      rw [hlenmap]; omega
    rw [hunf, List.getD_eq_getElem?_getD, List.getElem?_append, if_pos hcond]
    rw [List.getElem?_map, List.getElem?_range (by omega)]
    simp only [Option.map_some', Option.getD_some]
    rw [packGroup_testBit d (8 * (i / 8)) (i % 8) (by omega)]
    have h8 : 8 * (i / 8) + i % 8 = i := by omega
    rw [h8]
  · -- remainder byte
    have hrem : len % 8 ≠ 0 := by omega
    have hidx : i / 8 = mll / 8 := by omega
    have hcond : ¬ (i / 8 < ((List.range (mll / 8)).map (fun b => packGroup d (8 * b))).length) := by
      rw [hlenmap]; omega
    rw [hunf, List.getD_eq_getElem?_getD, List.getElem?_append, if_neg hcond]
    simp only [hlenmap, hidx, Nat.sub_self, hrem, if_false, ite_false,
      List.getElem?_cons_zero, Option.getD_some]
    rw [packRemainder_testBit d mll len (i % 8) hmll8 (by omega)]
    have h1 : (decide (i % 8 < len - mll) : Bool) = true := by
      simp only [decide_eq_true_eq]; omega
    rw [h1, Bool.true_and]
    have h8 : mll + i % 8 = i := by omega
    rw [h8]

end Lunagis

namespace Lunagis

/-- C3 — Bit-packing layout: for every input sequence of `N` truthy/falsy
values, `packBinaryData` produces exactly `ceil(N/8)` bytes in which bit
`i % 8` of byte `i / 8` is set if and only if input value `i` is non-zero;
in particular, packing `[1,0,1,1,0,0,0,0,1,1]` yields the two bytes
`[0b00001101, 0b00000011]`. -/
theorem packBinaryData_bit_layout (data : List Int) (i : Nat)
    (hi : i < data.length) :
    (packBinaryData data).length = (data.length + 7) / 8 ∧
    (((packBinaryData data).getD (i / 8) 0).testBit (i % 8) ↔
      data.getD i 0 ≠ 0) ∧
    packBinaryData [1, 0, 1, 1, 0, 0, 0, 0, 1, 1] = [13, 3] := by
  refine ⟨packBinaryData_length data, ?_, by decide⟩
  rw [packBinaryData_testBit data i hi]
  simp [truthy]

/-- Witness for `packBinaryData_bit_layout`, at the spec's own example
input and `i = 2`. -/
theorem packBinaryData_bit_layout_witness :
    2 < ([1, 0, 1, 1, 0, 0, 0, 0, 1, 1] : List Int).length ∧
    ((packBinaryData ([1, 0, 1, 1, 0, 0, 0, 0, 1, 1] : List Int)).length =
        (([1, 0, 1, 1, 0, 0, 0, 0, 1, 1] : List Int).length + 7) / 8 ∧
      (((packBinaryData ([1, 0, 1, 1, 0, 0, 0, 0, 1, 1] : List Int)).getD
          (2 / 8) 0).testBit (2 % 8) ↔
        ([1, 0, 1, 1, 0, 0, 0, 0, 1, 1] : List Int).getD 2 0 ≠ 0) ∧
      packBinaryData [1, 0, 1, 1, 0, 0, 0, 0, 1, 1] = [13, 3]) :=
  ⟨by decide, packBinaryData_bit_layout [1, 0, 1, 1, 0, 0, 0, 0, 1, 1] 2 (by decide)⟩

end Lunagis

namespace Lunagis

/-- C5 — Defensive hyperslab fallback of `NetCDFLazyDataset.getPixelTimeSeries`:
whenever the backend's hyperslab result does not have length `time`, a
result of length `time*height*width` is treated as a full time-major flat
buffer (element `t` of the returned series is the buffer value at index
`t*height*width + y*width + x`, and the series has length `time`), and any
other length is returned through the best-effort linear conversion
(`Array.from`); every fallback path is a total computation — no branch
throws. -/
theorem netcdf_defensive_fallback (time height width y x : Nat)
    (raw : List Int) (hne : raw.length ≠ time) :
    (raw.length = time * (height * width) →
      (netcdfPixelSeries time height width y x raw).length = time ∧
      ∀ t, t < time →
        (netcdfPixelSeries time height width y x raw).getD t 0 =
          raw.getD (t * (height * width) + (y * width + x)) 0) ∧
    (raw.length ≠ time * (height * width) →
      netcdfPixelSeries time height width y x raw = raw) := by
  constructor
  · intro hfull
    unfold netcdfPixelSeries
    rw [if_neg hne, if_pos hfull]
    constructor
    · simp
    · intro t ht
      rw [List.getD_eq_getElem?_getD, List.getElem?_map, List.getElem?_range ht]
      simp
  · intro hother
    unfold netcdfPixelSeries
    rw [if_neg hne, if_neg hother]

/-- Witness for `netcdf_defensive_fallback`: a backend that returned the
whole `2×2×2` dataset instead of the requested `(time,1,1)` hyperslab. -/
theorem netcdf_defensive_fallback_witness :
    (([10, 11, 12, 13, 14, 15, 16, 17] : List Int).length ≠ 2) ∧
    ((([10, 11, 12, 13, 14, 15, 16, 17] : List Int).length = 2 * (2 * 2) →
      (netcdfPixelSeries 2 2 2 1 0 [10, 11, 12, 13, 14, 15, 16, 17]).length = 2 ∧
      ∀ t, t < 2 →
        (netcdfPixelSeries 2 2 2 1 0 [10, 11, 12, 13, 14, 15, 16, 17]).getD t 0 =
          ([10, 11, 12, 13, 14, 15, 16, 17] : List Int).getD
            (t * (2 * 2) + (1 * 2 + 0)) 0) ∧
    (([10, 11, 12, 13, 14, 15, 16, 17] : List Int).length ≠ 2 * (2 * 2) →
      netcdfPixelSeries 2 2 2 1 0 [10, 11, 12, 13, 14, 15, 16, 17] =
        [10, 11, 12, 13, 14, 15, 16, 17])) :=
  ⟨by decide, netcdf_defensive_fallback 2 2 2 1 0 [10, 11, 12, 13, 14, 15, 16, 17] (by decide)⟩

end Lunagis

namespace Lunagis

theorem map_toFloat32 (l : List Int) : l.map toFloat32 = l := List.map_id' l

theorem netcdfDecode_illumination (raw : RawData) :
    netcdfDecode illuminationVar raw =
      (match raw with
       | .u8 v => SliceData.u8 v
       | r => .u8 (r.vals.map toUint8)) := by
  unfold netcdfDecode
  rw [if_pos (Or.inl rfl)]

theorem netcdfDecode_orbiter (raw : RawData) :
    netcdfDecode orbiterVisibilityVar raw =
      (match raw with
       | .u8 v => SliceData.u8 v
       | r => .u8 (r.vals.map toUint8)) := by
  unfold netcdfDecode
  rw [if_pos (Or.inr rfl)]

theorem netcdfDecode_dte (raw : RawData) :
    netcdfDecode dteVisibilityVar raw =
      .u8 ((packBinaryData raw.vals).map Int.ofNat) := by
  unfold netcdfDecode
  rw [if_neg (by decide), if_pos (Or.inl rfl)]
  rcases raw <;> simp [RawData.vals, map_toFloat32]

theorem netcdfDecode_night (raw : RawData) :
    netcdfDecode nightFlagVar raw =
      .u8 ((packBinaryData raw.vals).map Int.ofNat) := by
  unfold netcdfDecode
  rw [if_neg (by decide), if_pos (Or.inr rfl)]
  rcases raw <;> simp [RawData.vals, map_toFloat32]

theorem netcdfDecode_darkness (raw : RawData) :
    netcdfDecode darknessDurationVar raw =
      (match raw with
       | .i16 v => SliceData.i16 v
       | r => .i16 (r.vals.map toInt16)) := by
  unfold netcdfDecode
  rw [if_neg (by decide), if_neg (by decide), if_pos rfl]

theorem netcdfDecode_default (name : Key) (raw : RawData)
    (h1 : name ≠ illuminationVar) (h2 : name ≠ orbiterVisibilityVar)
    (h3 : name ≠ dteVisibilityVar) (h4 : name ≠ nightFlagVar)
    (h5 : name ≠ darknessDurationVar) :
    netcdfDecode name raw =
      (match raw with
       | .f32 v => SliceData.f32 v
       | r => .f32 (r.vals.map toFloat32)) := by
  unfold netcdfDecode
  rw [if_neg (by tauto), if_neg (by tauto), if_neg h5]

end Lunagis

namespace Lunagis

/-- C2 — Quantization policy: the decoded representation of every slice is
determined by the dataset's semantic variable kind, independent of the
on-disk element type of the raw read: `Uint8Array` (one unsigned 8-bit
value per cell) for `illumination` and `orbiter_visibility`; bit-packed
`Uint8Array` (1 bit per cell, `ceil(cells/8)` bytes with the
`packBinaryData` layout) for `dte_visibility` and `night_flag`;
`Int16Array` (signed 16-bit per cell) for `darkness_duration`;
`Float32Array` (32-bit float per cell) for every other variable name and
for every flat-binary (NPY) dataset, which has no distinguished variable
kind; and raw data already in the target representation is passed through
unchanged rather than converted. -/
theorem quantization_policy (name : Key) (raw : RawData) (v : List Int)
    (hname : name ≠ illuminationVar ∧ name ≠ orbiterVisibilityVar ∧
      name ≠ dteVisibilityVar ∧ name ≠ nightFlagVar ∧
      name ≠ darknessDurationVar) :
    ((netcdfDecode illuminationVar raw).rep = .u8 ∧
     (netcdfDecode orbiterVisibilityVar raw).rep = .u8 ∧
     (netcdfDecode illuminationVar raw).byteLength = raw.vals.length ∧
     (netcdfDecode orbiterVisibilityVar raw).byteLength = raw.vals.length ∧
     netcdfDecode illuminationVar (.u8 v) = .u8 v ∧
     netcdfDecode orbiterVisibilityVar (.u8 v) = .u8 v) ∧
    ((netcdfDecode dteVisibilityVar raw).rep = .u8 ∧
     (netcdfDecode nightFlagVar raw).rep = .u8 ∧
     (netcdfDecode dteVisibilityVar raw).byteLength = (raw.vals.length + 7) / 8 ∧
     (netcdfDecode nightFlagVar raw).byteLength = (raw.vals.length + 7) / 8 ∧
     netcdfDecode dteVisibilityVar raw =
       .u8 ((packBinaryData raw.vals).map Int.ofNat) ∧
     netcdfDecode nightFlagVar raw =
       .u8 ((packBinaryData raw.vals).map Int.ofNat)) ∧
    ((netcdfDecode darknessDurationVar raw).rep = .i16 ∧
     (netcdfDecode darknessDurationVar raw).byteLength = 2 * raw.vals.length ∧
     netcdfDecode darknessDurationVar (.i16 v) = .i16 v) ∧
    ((netcdfDecode name raw).rep = .f32 ∧
     (netcdfDecode name raw).byteLength = 4 * raw.vals.length ∧
     netcdfDecode name (.f32 v) = .f32 v) ∧
    ((npyConvert raw).rep = .f32 ∧
     npyConvert (.f32 v) = .f32 v) := by
  obtain ⟨h1, h2, h3, h4, h5⟩ := hname
  refine ⟨⟨?_, ?_, ?_, ?_, ?_, ?_⟩, ⟨?_, ?_, ?_, ?_, ?_, ?_⟩,
    ⟨?_, ?_, ?_⟩, ⟨?_, ?_, ?_⟩, ?_, ?_⟩
  · rw [netcdfDecode_illumination]
    rcases raw <;> simp [SliceData.rep]
  · rw [netcdfDecode_orbiter]
    rcases raw <;> simp [SliceData.rep]
  · rw [netcdfDecode_illumination]
    rcases raw <;> simp [SliceData.byteLength, RawData.vals]
  · rw [netcdfDecode_orbiter]
    rcases raw <;> simp [SliceData.byteLength, RawData.vals]
  · rw [netcdfDecode_illumination]
  · rw [netcdfDecode_orbiter]
  · rw [netcdfDecode_dte]
    simp [SliceData.rep]
  · rw [netcdfDecode_night]
    simp [SliceData.rep]
  · rw [netcdfDecode_dte]
    simp only [SliceData.byteLength, List.length_map]
    exact packBinaryData_length _
  · rw [netcdfDecode_night]
    simp only [SliceData.byteLength, List.length_map]
    exact packBinaryData_length _
  · exact netcdfDecode_dte raw
  · exact netcdfDecode_night raw
  · rw [netcdfDecode_darkness]
    rcases raw <;> simp [SliceData.rep]
  · rw [netcdfDecode_darkness]
    rcases raw <;> simp [SliceData.byteLength, RawData.vals]
  · rw [netcdfDecode_darkness]
  · rw [netcdfDecode_default name raw h1 h2 h3 h4 h5]
    rcases raw <;> simp [SliceData.rep]
  · rw [netcdfDecode_default name raw h1 h2 h3 h4 h5]
    rcases raw <;> simp [SliceData.byteLength, RawData.vals]
  · rw [netcdfDecode_default name (.f32 v) h1 h2 h3 h4 h5]
  · unfold npyConvert
    rcases raw <;> simp [SliceData.rep]
  · rfl

/-- Witness for `quantization_policy` at a non-special variable name and a
`Float64` raw array. -/
theorem quantization_policy_witness :
    ("slope".toList ≠ illuminationVar ∧ "slope".toList ≠ orbiterVisibilityVar ∧
      "slope".toList ≠ dteVisibilityVar ∧ "slope".toList ≠ nightFlagVar ∧
      "slope".toList ≠ darknessDurationVar) ∧
    (((netcdfDecode illuminationVar (.f64 [0, 300])).rep = .u8 ∧
     (netcdfDecode orbiterVisibilityVar (.f64 [0, 300])).rep = .u8 ∧
     (netcdfDecode illuminationVar (.f64 [0, 300])).byteLength =
       (RawData.f64 [0, 300]).vals.length ∧
     (netcdfDecode orbiterVisibilityVar (.f64 [0, 300])).byteLength =
       (RawData.f64 [0, 300]).vals.length ∧
     netcdfDecode illuminationVar (.u8 [0, 1]) = .u8 [0, 1] ∧
     netcdfDecode orbiterVisibilityVar (.u8 [0, 1]) = .u8 [0, 1]) ∧
    ((netcdfDecode dteVisibilityVar (.f64 [0, 300])).rep = .u8 ∧
     (netcdfDecode nightFlagVar (.f64 [0, 300])).rep = .u8 ∧
     (netcdfDecode dteVisibilityVar (.f64 [0, 300])).byteLength =
       ((RawData.f64 [0, 300]).vals.length + 7) / 8 ∧
     (netcdfDecode nightFlagVar (.f64 [0, 300])).byteLength =
       ((RawData.f64 [0, 300]).vals.length + 7) / 8 ∧
     netcdfDecode dteVisibilityVar (.f64 [0, 300]) =
       .u8 ((packBinaryData (RawData.f64 [0, 300]).vals).map Int.ofNat) ∧
     netcdfDecode nightFlagVar (.f64 [0, 300]) =
       .u8 ((packBinaryData (RawData.f64 [0, 300]).vals).map Int.ofNat)) ∧
    ((netcdfDecode darknessDurationVar (.f64 [0, 300])).rep = .i16 ∧
     (netcdfDecode darknessDurationVar (.f64 [0, 300])).byteLength =
       2 * (RawData.f64 [0, 300]).vals.length ∧
     netcdfDecode darknessDurationVar (.i16 [0, 1]) = .i16 [0, 1]) ∧
    ((netcdfDecode "slope".toList (.f64 [0, 300])).rep = .f32 ∧
     (netcdfDecode "slope".toList (.f64 [0, 300])).byteLength =
       4 * (RawData.f64 [0, 300]).vals.length ∧
     netcdfDecode "slope".toList (.f32 [0, 1]) = .f32 [0, 1]) ∧
    ((npyConvert (.f64 [0, 300])).rep = .f32 ∧
     npyConvert (.f32 [0, 1]) = .f32 [0, 1])) :=
  ⟨by decide, quantization_policy "slope".toList (.f64 [0, 300]) [0, 1] (by decide)⟩

end Lunagis

namespace Lunagis

theorem npyBatches_take_flatten (time k : Nat) :
    (((List.range k).map (npyBatch time)).flatten)
      = List.range (min (npyBatchSize * k) time) := by
  induction k with
  | zero => simp
  | succ k ih =>
    rw [List.range_succ, List.map_append, List.flatten_append, ih]
    simp only [List.map_cons, List.map_nil, List.flatten_cons, List.flatten_nil,
      List.append_nil]
    unfold npyBatch
    by_cases h : npyBatchSize * k ≤ time
    · have hmin : min (npyBatchSize * k) time = npyBatchSize * k := by omega
      have hsum : npyBatchSize * k + min npyBatchSize (time - npyBatchSize * k)
          = min (npyBatchSize * (k + 1)) time := by
        simp only [npyBatchSize] at h ⊢
        omega
      rw [hmin, ← hsum, List.range_add]
    · have h1 : min (npyBatchSize * k) time = time := by omega
      have h2 : time - npyBatchSize * k = 0 := by omega
      have h3 : min (npyBatchSize * (k + 1)) time = time := by
        simp only [npyBatchSize] at h ⊢
        omega
      rw [h1, h2, h3]
      simp

theorem npyBatches_flatten (time : Nat) :
    (npyBatches time).flatten = List.range time := by
  unfold npyBatches
  rw [npyBatches_take_flatten]
  congr 1
  simp only [npyBatchSize]
  omega

theorem foldl_set_length (readV : Nat → Int) (L : List Nat) (r : List Int) :
    (L.foldl (fun acc t => acc.set t (readV t)) r).length = r.length := by
  induction L generalizing r with
  | nil => rfl
  | cons t L ih => rw [List.foldl_cons, ih, List.length_set]

theorem foldl_set_getD (readV : Nat → Int) (L : List Nat) (r : List Int)
    (i : Nat) (hi : i < r.length) :
    (L.foldl (fun acc t => acc.set t (readV t)) r).getD i 0
      = if i ∈ L then readV i else r.getD i 0 := by
  induction L generalizing r with
  | nil => simp
  | cons t L ih =>
    rw [List.foldl_cons, ih (r.set t (readV t)) (by rw [List.length_set]; exact hi)]
    by_cases hmem : i ∈ L
    · simp [hmem]
    · by_cases hit : i = t
      · subst hit
        simp only [hmem, if_false, List.mem_cons, true_or, if_true]
        rw [List.getD_eq_getElem?_getD, List.getElem?_set_self (by exact hi),
          Option.getD_some]
      · simp only [hmem, if_false, List.mem_cons, hit, false_or]
        rw [List.getD_eq_getElem?_getD, List.getElem?_set_ne (by omega),
          ← List.getD_eq_getElem?_getD]

end Lunagis

namespace Lunagis

theorem foldl_flatten_set (readV : Nat → Int) (Ls : List (List Nat)) (r : List Int) :
    Ls.foldl (fun results batch =>
      batch.foldl (fun acc t => acc.set t (readV t)) results) r
      = Ls.flatten.foldl (fun acc t => acc.set t (readV t)) r := by
  induction Ls generalizing r with
  | nil => rfl
  | cons b Ls ih => rw [List.foldl_cons, List.flatten_cons, List.foldl_append, ih]

theorem npyReadValue_eq_slice (file : Nat → Int) (meta : StreamingNpyMetadata)
    (y x t : Nat) (hy : y < meta.dimensions.height)
    (hx : x < meta.dimensions.width) :
    npyReadValue file meta y x t =
      (npyGetSliceVals file meta t).getD (y * meta.dimensions.width + x) 0 := by
  unfold npyReadValue npyGetSliceVals loadNpyTimeSlice
  have hidx : y * meta.dimensions.width + x <
      meta.dimensions.height * meta.dimensions.width := by
    calc y * meta.dimensions.width + x < y * meta.dimensions.width +
          meta.dimensions.width := by omega
      _ = (y + 1) * meta.dimensions.width := by ring
      _ ≤ meta.dimensions.height * meta.dimensions.width :=
          Nat.mul_le_mul_right _ hy
  rw [List.getD_eq_getElem?_getD, List.getElem?_map, List.getElem?_range hidx]
  simp only [Option.map_some', Option.getD_some]
  congr 1
  ring

/-- C4 — Flat-binary pixel time series: `NpyLazyDataset.getPixelTimeSeries`
issues its per-time-step reads in strictly sequential batches of 50 (for
`time = 120`, exactly three batches of sizes 50, 50, 20; in general the
batches partition `[0, time)` in ascending order), and the returned
sequence has length `time` and agrees at every index `t` with the value at
`(y, x)` of the decoded slice that `getSlice(t)` produces on a cache miss. -/
theorem npy_pixel_series_batched (file : Nat → Int)
    (meta : StreamingNpyMetadata) (y x : Nat)
    (hy : y < meta.dimensions.height) (hx : x < meta.dimensions.width) :
    (npyBatches 120).map List.length = [50, 50, 20] ∧
    (npyBatches meta.dimensions.time).flatten =
      List.range meta.dimensions.time ∧
    (npyGetPixelTimeSeries file meta y x).length = meta.dimensions.time ∧
    ∀ t, t < meta.dimensions.time →
      (npyGetPixelTimeSeries file meta y x).getD t 0 =
        (npyGetSliceVals file meta t).getD (y * meta.dimensions.width + x) 0 := by
  have hrun : npyGetPixelTimeSeries file meta y x =
      (List.range meta.dimensions.time).foldl
        (fun acc t => acc.set t (npyReadValue file meta y x t))
        (List.replicate meta.dimensions.time 0) := by
    unfold npyGetPixelTimeSeries
    rw [foldl_flatten_set, npyBatches_flatten]
  refine ⟨by decide, npyBatches_flatten _, ?_, ?_⟩
  · rw [hrun, foldl_set_length, List.length_replicate]
  · intro t ht
    rw [hrun, foldl_set_getD _ _ _ t (by rw [List.length_replicate]; exact ht)]
    rw [if_pos (List.mem_range.mpr ht)]
    exact npyReadValue_eq_slice file meta y x t hy hx

/-- Witness for `npy_pixel_series_batched`: a `3×2×2` dataset whose file
content at element-aligned offset `o` is the value `o`. -/
theorem npy_pixel_series_batched_witness :
    (1 < (⟨⟨3, 2, 2⟩, 100, 4⟩ : StreamingNpyMetadata).dimensions.height ∧
     0 < (⟨⟨3, 2, 2⟩, 100, 4⟩ : StreamingNpyMetadata).dimensions.width) ∧
    ((npyBatches 120).map List.length = [50, 50, 20] ∧
     (npyBatches (⟨⟨3, 2, 2⟩, 100, 4⟩ : StreamingNpyMetadata).dimensions.time).flatten =
       List.range (⟨⟨3, 2, 2⟩, 100, 4⟩ : StreamingNpyMetadata).dimensions.time ∧
     (npyGetPixelTimeSeries (fun o => (o : Int)) ⟨⟨3, 2, 2⟩, 100, 4⟩ 1 0).length =
       (⟨⟨3, 2, 2⟩, 100, 4⟩ : StreamingNpyMetadata).dimensions.time ∧
     ∀ t, t < (⟨⟨3, 2, 2⟩, 100, 4⟩ : StreamingNpyMetadata).dimensions.time →
       (npyGetPixelTimeSeries (fun o => (o : Int)) ⟨⟨3, 2, 2⟩, 100, 4⟩ 1 0).getD t 0 =
         (npyGetSliceVals (fun o => (o : Int)) ⟨⟨3, 2, 2⟩, 100, 4⟩ t).getD
           (1 * (⟨⟨3, 2, 2⟩, 100, 4⟩ : StreamingNpyMetadata).dimensions.width + 0) 0) :=
  ⟨⟨by decide, by decide⟩,
    npy_pixel_series_batched (fun o => (o : Int)) ⟨⟨3, 2, 2⟩, 100, 4⟩ 1 0
      (by decide) (by decide)⟩

end Lunagis

namespace Lunagis

namespace SliceCache



theorem getKey_ne_nil (fileId : Key) (timeIndex : Nat) :
    getKey fileId timeIndex ≠ ([] : Key) := by
  unfold getKey
  intro h
  have := List.append_eq_nil.mp h
  exact List.cons_ne_nil _ _ this.2

theorem sumBytes_cons {α : Type} (bs : α → Nat) (p : Key × CacheEntry α)
    (m : List (Key × CacheEntry α)) :
    sumBytes bs (p :: m) = bs p.2.data + sumBytes bs m := by
  unfold sumBytes
  simp

theorem mapGet_eq_some_mem {α : Type} {m : List (Key × CacheEntry α)}
    {k : Key} {e : CacheEntry α} (h : mapGet m k = some e) :
    (k, e) ∈ m := by
  unfold mapGet at h
  cases hf : m.find? (fun p => p.1 = k) with
  | none => rw [hf] at h; simp at h
  | some p =>
    rw [hf] at h
    simp only [Option.map_some', Option.some.injEq] at h
    have hp : p.1 = k := by simpa using List.find?_some hf
    have hmem := List.mem_of_find?_eq_some hf
    have : p = (k, e) := by
      cases p
      simp_all
    rw [← this]
    exact hmem

theorem mapGet_eq_some_of_mem {α : Type} {m : List (Key × CacheEntry α)}
    {k : Key} {e : CacheEntry α} (hnd : (keysOf m).Nodup)
    (hmem : (k, e) ∈ m) : mapGet m k = some e := by
  induction m with
  | nil => cases hmem
  | cons p m ih =>
    rcases List.mem_cons.mp hmem with heq | htail
    · unfold mapGet
      rw [List.find?_cons_of_pos]
      · simp [← heq]
      · simp [← heq]
    · have hk : p.1 ≠ k := by
        intro hpk
        have : k ∈ keysOf m := by
          unfold keysOf
          exact List.mem_map.mpr ⟨(k, e), htail, rfl⟩
        have hnotin : p.1 ∉ keysOf m := by
          have := hnd
          unfold keysOf at this ⊢
          simp only [List.map_cons] at this
          exact (List.nodup_cons.mp this).1
        rw [hpk] at hnotin
        exact hnotin this
      unfold mapGet
      rw [List.find?_cons_of_neg]
      · have hnd' : (keysOf m).Nodup := by
          unfold keysOf at hnd ⊢
          simp only [List.map_cons] at hnd
          exact (List.nodup_cons.mp hnd).2
        exact ih hnd' htail
      · simp [hk]

theorem length_filter_ne {α : Type} {m : List (Key × CacheEntry α)}
    {k : Key} {e : CacheEntry α} (hnd : (keysOf m).Nodup)
    (hmem : (k, e) ∈ m) :
    (m.filter (fun p => ¬ p.1 = k)).length + 1 = m.length := by
  induction m with
  | nil => cases hmem
  | cons p m ih =>
    have hnd' : (keysOf m).Nodup := by
      unfold keysOf at hnd ⊢
      simp only [List.map_cons] at hnd
      exact (List.nodup_cons.mp hnd).2
    rcases List.mem_cons.mp hmem with heq | htail
    · rw [List.filter_cons, if_neg (by simp [← heq])]
      have hnotin : p.1 ∉ keysOf m := by
        unfold keysOf at hnd
        simp only [List.map_cons] at hnd
        exact (List.nodup_cons.mp hnd).1
      have hall : m.filter (fun p' => ¬ p'.1 = k) = m := by
        apply List.filter_eq_self.mpr
        intro q hq
        simp only [decide_not, Bool.not_eq_true', decide_eq_false_iff_not]
        intro hqk
        apply hnotin
        rw [← heq]
        unfold keysOf
        exact List.mem_map.mpr ⟨q, hq, by rw [hqk]⟩
      rw [hall]
      simp
    · have hk : p.1 ≠ k := by
        intro hpk
        have : k ∈ keysOf m := by
          unfold keysOf
          exact List.mem_map.mpr ⟨(k, e), htail, rfl⟩
        have hnotin : p.1 ∉ keysOf m := by
          unfold keysOf at hnd
          simp only [List.map_cons] at hnd
          exact (List.nodup_cons.mp hnd).1
        rw [hpk] at hnotin
        exact hnotin this
      rw [List.filter_cons, if_pos (by simp [hk])]
      simp only [List.length_cons]
      rw [← ih hnd' htail]

theorem sumBytes_filter_ne {α : Type} (bs : α → Nat)
    {m : List (Key × CacheEntry α)} {k : Key} {e : CacheEntry α}
    (hnd : (keysOf m).Nodup) (hmem : (k, e) ∈ m) :
    sumBytes bs (m.filter (fun p => ¬ p.1 = k)) + bs e.data
      = sumBytes bs m := by
  induction m with
  | nil => cases hmem
  | cons p m ih =>
    have hnd' : (keysOf m).Nodup := by
      unfold keysOf at hnd ⊢
      simp only [List.map_cons] at hnd
      exact (List.nodup_cons.mp hnd).2
    rcases List.mem_cons.mp hmem with heq | htail
    · rw [List.filter_cons, if_neg (by simp [← heq])]
      have hnotin : p.1 ∉ keysOf m := by
        unfold keysOf at hnd
        simp only [List.map_cons] at hnd
        exact (List.nodup_cons.mp hnd).1
      have hall : m.filter (fun p' => ¬ p'.1 = k) = m := by
        apply List.filter_eq_self.mpr
        intro q hq
        simp only [decide_not, Bool.not_eq_true', decide_eq_false_iff_not]
        intro hqk
        apply hnotin
        rw [← heq]
        unfold keysOf
        exact List.mem_map.mpr ⟨q, hq, by rw [hqk]⟩
      rw [hall, sumBytes_cons, ← heq]
      have hred : (((k, e) : Key × CacheEntry α).2).data = e.data := rfl
      rw [hred]
      omega
    · have hk : p.1 ≠ k := by
        intro hpk
        have : k ∈ keysOf m := by
          unfold keysOf
          exact List.mem_map.mpr ⟨(k, e), htail, rfl⟩
        have hnotin : p.1 ∉ keysOf m := by
          unfold keysOf at hnd
          simp only [List.map_cons] at hnd
          exact (List.nodup_cons.mp hnd).1
        rw [hpk] at hnotin
        exact hnotin this
      rw [List.filter_cons, if_pos (by simp [hk]), sumBytes_cons, sumBytes_cons]
      rw [← ih hnd' htail]
      omega

end SliceCache

end Lunagis

namespace Lunagis

namespace SliceCache

theorem findOldestAux_nil {α : Type} :
    ∀ acc, findOldestAux (α := α) acc [] = acc
  | none => rfl
  | some (_, _) => rfl

theorem findOldestAux_some_acc {α : Type} (m : List (Key × CacheEntry α))
    (pr : Key × Nat) : ∃ k t, findOldestAux (some pr) m = some (k, t) := by
  induction m generalizing pr with
  | nil => exact ⟨pr.1, pr.2, rfl⟩
  | cons p m ih =>
    obtain ⟨k', e'⟩ := p
    unfold findOldestAux
    obtain ⟨k0, t0⟩ := pr
    by_cases h : e'.lastAccess < t0 <;> simp only [h, if_true, if_false] <;>
      first
        | exact ih (k', e'.lastAccess)
        | exact ih (k0, t0)

theorem findOldest_of_ne_nil {α : Type} (m : List (Key × CacheEntry α))
    (hne : m ≠ []) : ∃ k t, findOldestAux none m = some (k, t) := by
  cases m with
  | nil => exact absurd rfl hne
  | cons p m =>
    obtain ⟨k', e'⟩ := p
    unfold findOldestAux
    exact findOldestAux_some_acc m (k', e'.lastAccess)

theorem findOldestAux_spec {α : Type} (m : List (Key × CacheEntry α)) :
    ∀ (acc : Option (Key × Nat)) (k : Key) (t : Nat),
      findOldestAux acc m = some (k, t) →
      (acc = some (k, t) ∨ ∃ e, (k, e) ∈ m ∧ e.lastAccess = t) ∧
      (∀ p ∈ m, t ≤ p.2.lastAccess) ∧
      (∀ k0 t0, acc = some (k0, t0) → t ≤ t0) := by
  induction m with
  | nil =>
    intro acc k t h
    rw [findOldestAux_nil] at h
    refine ⟨Or.inl h, by simp, ?_⟩
    intro k0 t0 h0
    rw [h] at h0
    simp only [Option.some.injEq, Prod.mk.injEq] at h0
    omega
  | cons p m ih =>
    intro acc k t h
    obtain ⟨k', e'⟩ := p
    cases acc with
    | none =>
      unfold findOldestAux at h
      obtain ⟨hsrc, hmin, hacc⟩ := ih (some (k', e'.lastAccess)) k t h
      have hte : t ≤ e'.lastAccess := hacc k' e'.lastAccess rfl
      refine ⟨?_, ?_, ?_⟩
      · rcases hsrc with hs | ⟨e, he, het⟩
        · right
          simp only [Option.some.injEq, Prod.mk.injEq] at hs
          obtain ⟨hk, ht⟩ := hs
          subst hk
          exact ⟨e', List.mem_cons_self _ _, ht⟩
        · right
          exact ⟨e, List.mem_cons_of_mem _ he, het⟩
      · intro q hq
        rcases List.mem_cons.mp hq with hq1 | hq2
        · rw [hq1]
          exact hte
        · exact hmin q hq2
      · intro k0 t0 h0
        cases h0
    | some pr =>
      obtain ⟨k0, t0⟩ := pr
      unfold findOldestAux at h
      by_cases hlt : e'.lastAccess < t0
      · rw [if_pos hlt] at h
        obtain ⟨hsrc, hmin, hacc⟩ := ih (some (k', e'.lastAccess)) k t h
        have hte : t ≤ e'.lastAccess := hacc k' e'.lastAccess rfl
        refine ⟨?_, ?_, ?_⟩
        · rcases hsrc with hs | ⟨e, he, het⟩
          · right
            simp only [Option.some.injEq, Prod.mk.injEq] at hs
            obtain ⟨hk, ht⟩ := hs
            subst hk
            exact ⟨e', List.mem_cons_self _ _, ht⟩
          · right
            exact ⟨e, List.mem_cons_of_mem _ he, het⟩
        · intro q hq
          rcases List.mem_cons.mp hq with hq1 | hq2
          · rw [hq1]
            exact hte
          · exact hmin q hq2
        · intro k1 t1 h1
          simp only [Option.some.injEq, Prod.mk.injEq] at h1
          omega
      · rw [if_neg hlt] at h
        obtain ⟨hsrc, hmin, hacc⟩ := ih (some (k0, t0)) k t h
        have htt0 : t ≤ t0 := hacc k0 t0 rfl
        refine ⟨?_, ?_, ?_⟩
        · rcases hsrc with hs | ⟨e, he, het⟩
          · exact Or.inl hs
          · exact Or.inr ⟨e, List.mem_cons_of_mem _ he, het⟩
        · intro q hq
          rcases List.mem_cons.mp hq with hq1 | hq2
          · rw [hq1]
            show t ≤ e'.lastAccess
            omega
          · exact hmin q hq2
        · intro k1 t1 h1
          simp only [Option.some.injEq, Prod.mk.injEq] at h1
          omega

end SliceCache

end Lunagis

namespace Lunagis

namespace SliceCache

theorem keysOf_nodup_tail {α : Type} {p : Key × CacheEntry α}
    {m : List (Key × CacheEntry α)} (h : (keysOf (p :: m)).Nodup) :
    (keysOf m).Nodup := by
  unfold keysOf at h ⊢
  simp only [List.map_cons] at h
  exact (List.nodup_cons.mp h).2

theorem evictLRUStep_spec {α : Type} (bs : α → Nat) (s : CacheState α)
    (hnd : (keysOf s.cache).Nodup) (hnil : ∀ p ∈ s.cache, p.1 ≠ ([] : Key))
    (hne : s.cache ≠ []) :
    ∃ k e, (k, e) ∈ s.cache ∧
      (evictLRUStep bs s).cache = s.cache.filter (fun p => ¬ p.1 = k) ∧
      (evictLRUStep bs s).currentSize = s.currentSize - (bs e.data : Int) ∧
      (∀ p ∈ s.cache, e.lastAccess ≤ p.2.lastAccess) := by
  obtain ⟨k, t, hfind⟩ := findOldest_of_ne_nil s.cache hne
  obtain ⟨hsrc, hmin, _⟩ := findOldestAux_spec s.cache none k t hfind
  rcases hsrc with hcontra | ⟨e, hmem, hlast⟩
  · cases hcontra
  have hk : ¬ k = ([] : Key) := hnil (k, e) hmem
  have hget : mapGet s.cache k = some e := mapGet_eq_some_of_mem hnd hmem
  have hstep : evictLRUStep bs s =
      { cache := s.cache.filter (fun p => ¬ p.1 = k),
        currentSize := s.currentSize - (bs e.data : Int) } := by
    unfold evictLRUStep
    rw [hfind]
    show (if k = [] then s
          else match mapGet s.cache k with
            | none => s
            | some e =>
              { cache := s.cache.filter (fun p => ¬ p.1 = k),
                currentSize := s.currentSize - (bs e.data : Int) }) = _
    rw [if_neg hk, hget]
  refine ⟨k, e, hmem, ?_, ?_, ?_⟩
  · rw [hstep]
  · rw [hstep]
  · intro p hp
    rw [hlast]
    exact hmin p hp

theorem wf_evictLRUStep {α : Type} (bs : α → Nat) (s : CacheState α)
    (hwf : WellFormed bs s) (hne : s.cache ≠ []) :
    WellFormed bs (evictLRUStep bs s) ∧
    (evictLRUStep bs s).cache.length + 1 = s.cache.length := by
  obtain ⟨hnd, hnil, hsum⟩ := hwf
  obtain ⟨k, e, hmem, hcache, hsize, _⟩ := evictLRUStep_spec bs s hnd hnil hne
  have hsub : (evictLRUStep bs s).cache.Sublist s.cache := by
    rw [hcache]
    exact List.filter_sublist s.cache
  refine ⟨⟨?_, ?_, ?_⟩, ?_⟩
  · have : (keysOf (evictLRUStep bs s).cache).Sublist (keysOf s.cache) :=
      List.Sublist.map _ hsub
    exact List.Nodup.sublist this hnd
  · intro p hp
    exact hnil p (hsub.mem hp)
  · rw [hsize]
    have h1 := sumBytes_filter_ne bs hnd hmem
    rw [hcache]
    omega
  · rw [hcache]
    exact length_filter_ne hnd hmem

theorem evictLoop_spec {α : Type} (bs : α → Nat) (sz : Nat) :
    ∀ (fuel : Nat) (s : CacheState α), s.cache.length ≤ fuel →
      WellFormed bs s →
      WellFormed bs (evictLoop bs sz fuel s) ∧
      ((evictLoop bs sz fuel s).currentSize + (sz : Int) ≤ SLICE_CACHE_SIZE_B ∨
        (evictLoop bs sz fuel s).cache = []) := by
  intro fuel
  induction fuel with
  | zero =>
    intro s hlen hwf
    have hempty : s.cache = [] := List.length_eq_zero.mp (Nat.le_zero.mp hlen)
    exact ⟨hwf, Or.inr hempty⟩
  | succ fuel ih =>
    intro s hlen hwf
    unfold evictLoop
    by_cases hcond : s.currentSize + (sz : Int) > SLICE_CACHE_SIZE_B ∧
        s.cache.length > 0
    · rw [if_pos hcond]
      have hne : s.cache ≠ [] := by
        intro h
        rw [h] at hcond
        simp at hcond
      obtain ⟨hwf', hlen'⟩ := wf_evictLRUStep bs s hwf hne
      exact ih (evictLRUStep bs s) (by omega) hwf'
    · rw [if_neg hcond]
      rcases not_and_or.mp hcond with h1 | h2
      · exact ⟨hwf, Or.inl (by omega)⟩
      · have : s.cache = [] := List.length_eq_zero.mp (by omega)
        exact ⟨hwf, Or.inr this⟩

end SliceCache

end Lunagis

namespace Lunagis

namespace SliceCache

theorem mapSet_nil {α : Type} (k : Key) (v : CacheEntry α) :
    mapSet ([] : List (Key × CacheEntry α)) k v = [(k, v)] := rfl

theorem mapSet_of_mem {α : Type} {m : List (Key × CacheEntry α)} {k : Key}
    (v : CacheEntry α) (h : k ∈ keysOf m) :
    mapSet m k v = m.map (fun p => if p.1 = k then (k, v) else p) := by
  unfold mapSet
  rw [if_pos]
  rw [List.any_eq_true]
  obtain ⟨p, hp, hpk⟩ := List.mem_map.mp h
  exact ⟨p, hp, by simp [hpk]⟩

theorem mapSet_of_not_mem {α : Type} {m : List (Key × CacheEntry α)} {k : Key}
    (v : CacheEntry α) (h : k ∉ keysOf m) :
    mapSet m k v = m ++ [(k, v)] := by
  unfold mapSet
  rw [if_neg]
  rw [List.any_eq_true]
  rintro ⟨p, hp, hpk⟩
  apply h
  have : p.1 = k := by simpa using hpk
  rw [← this]
  exact List.mem_map.mpr ⟨p, hp, rfl⟩

theorem keysOf_map_replace {α : Type} (m : List (Key × CacheEntry α))
    (k : Key) (v : CacheEntry α) :
    keysOf (m.map (fun p => if p.1 = k then (k, v) else p)) = keysOf m := by
  unfold keysOf
  rw [List.map_map]
  apply List.map_congr_left
  intro p _
  by_cases hp : p.1 = k <;> simp [hp]

theorem keysOf_append_single {α : Type} (m : List (Key × CacheEntry α))
    (k : Key) (v : CacheEntry α) :
    keysOf (m ++ [(k, v)]) = keysOf m ++ [k] := by
  unfold keysOf
  simp

theorem sumBytes_append_single {α : Type} (bs : α → Nat)
    (m : List (Key × CacheEntry α)) (k : Key) (v : CacheEntry α) :
    sumBytes bs (m ++ [(k, v)]) = sumBytes bs m + bs v.data := by
  unfold sumBytes
  simp

theorem mapSet_cons_ne {α : Type} {p : Key × CacheEntry α}
    {m : List (Key × CacheEntry α)} {k : Key} (v : CacheEntry α)
    (h : ¬ p.1 = k) :
    mapSet (p :: m) k v = p :: mapSet m k v := by
  unfold mapSet
  by_cases hm : m.any (fun q => q.1 = k)
  · rw [if_pos, if_pos hm]
    · simp only [List.map_cons, if_neg h]
    · simp only [List.any_cons, hm, Bool.or_true]
  · rw [if_neg, if_neg hm]
    · simp
    · simp only [List.any_cons, hm, Bool.or_false]
      simpa using h

theorem sumBytes_mapSet_le {α : Type} (bs : α → Nat)
    (m : List (Key × CacheEntry α)) (k : Key) (v : CacheEntry α)
    (hnd : (keysOf m).Nodup) :
    sumBytes bs (mapSet m k v) ≤ sumBytes bs m + bs v.data := by
  induction m with
  | nil =>
    rw [mapSet_nil]
    unfold sumBytes
    simp
  | cons p m ih =>
    have hnd' : (keysOf m).Nodup := keysOf_nodup_tail hnd
    by_cases hpk : p.1 = k
    · have hknotin : k ∉ keysOf m := by
        unfold keysOf at hnd
        simp only [List.map_cons] at hnd
        rw [← hpk]
        exact (List.nodup_cons.mp hnd).1
      have hmem : k ∈ keysOf (p :: m) := by
        unfold keysOf
        exact List.mem_map.mpr ⟨p, List.mem_cons_self _ _, hpk⟩
      rw [mapSet_of_mem v hmem]
      simp only [List.map_cons, if_pos hpk]
      have hfix : m.map (fun q => if q.1 = k then (k, v) else q) = m := by
        have hcongr : m.map (fun q => if q.1 = k then (k, v) else q) = m.map id :=
          List.map_congr_left (fun q hq => by
            rw [if_neg]
            · rfl
            · intro hqk
              apply hknotin
              rw [← hqk]
              exact List.mem_map.mpr ⟨q, hq, rfl⟩)
        rw [hcongr, List.map_id]
      rw [hfix, sumBytes_cons, sumBytes_cons]
      have hred : (((k, v)) : Key × CacheEntry α).2.data = v.data := rfl
      rw [hred]
      omega
    · rw [mapSet_cons_ne v hpk, sumBytes_cons, sumBytes_cons]
      have := ih hnd'
      omega

theorem wf_mapSet {α : Type} (m : List (Key × CacheEntry α))
    (k : Key) (v : CacheEntry α) (hnd : (keysOf m).Nodup)
    (hnil : ∀ p ∈ m, p.1 ≠ ([] : Key)) (hk : k ≠ ([] : Key)) :
    (keysOf (mapSet m k v)).Nodup ∧
    (∀ p ∈ mapSet m k v, p.1 ≠ ([] : Key)) := by
  by_cases hmem : k ∈ keysOf m
  · rw [mapSet_of_mem v hmem]
    refine ⟨by rw [keysOf_map_replace]; exact hnd, ?_⟩
    intro p hp
    obtain ⟨q, hq, hqp⟩ := List.mem_map.mp hp
    by_cases hqk : q.1 = k
    · rw [← hqp, if_pos hqk]
      exact hk
    · rw [← hqp, if_neg hqk]
      exact hnil q hq
  · rw [mapSet_of_not_mem v hmem]
    refine ⟨?_, ?_⟩
    · rw [keysOf_append_single, List.nodup_append]
      refine ⟨hnd, List.nodup_singleton k, ?_⟩
      intro a ha hb
      have hak : a = k := by simpa using hb
      rw [hak] at ha
      exact hmem ha
    · intro p hp
      rcases List.mem_append.mp hp with h1 | h2
      · exact hnil p h1
      · have : p = (k, v) := by simpa using h2
        rw [this]
        exact hk

end SliceCache

end Lunagis

namespace Lunagis

namespace SliceCache

theorem setOp_wf_inv {α : Type} (bs : α → Nat) (fileId : Key)
    (timeIndex : Nat) (d : α) (now : Nat) (s : CacheState α)
    (hwf : WellFormed bs s) :
    WellFormed bs (setOp bs fileId timeIndex d now s) ∧
    ((sumBytes bs (setOp bs fileId timeIndex d now s).cache : Int) ≤
        SLICE_CACHE_SIZE_B ∨
      (setOp bs fileId timeIndex d now s).cache.length = 1) := by
  obtain ⟨hwf1, hbound⟩ :=
    evictLoop_spec bs (bs d) s.cache.length s (le_refl _) hwf
  set s1 := evictLoop bs (bs d) s.cache.length s with hs1
  obtain ⟨hnd1, hnil1, hsum1⟩ := hwf1
  have hres : setOp bs fileId timeIndex d now s =
      { cache := mapSet s1.cache (getKey fileId timeIndex) ⟨d, now⟩,
        currentSize := s1.currentSize + (bs d : Int) } := rfl
  have hknil := getKey_ne_nil fileId timeIndex
  obtain ⟨hnd2, hnil2⟩ :=
    wf_mapSet s1.cache (getKey fileId timeIndex) ⟨d, now⟩ hnd1 hnil1 hknil
  have hsumle := sumBytes_mapSet_le bs s1.cache (getKey fileId timeIndex)
    ⟨d, now⟩ hnd1
  have hdata : (⟨d, now⟩ : CacheEntry α).data = d := rfl
  rw [hdata] at hsumle
  constructor
  · rw [hres]
    exact ⟨hnd2, hnil2, by
      show (sumBytes bs (mapSet s1.cache (getKey fileId timeIndex) ⟨d, now⟩) : Int) ≤
        s1.currentSize + (bs d : Int)
      have h1 : (sumBytes bs (mapSet s1.cache (getKey fileId timeIndex) ⟨d, now⟩) : Int)
          ≤ (sumBytes bs s1.cache : Int) + (bs d : Int) := by
        exact_mod_cast hsumle
      omega⟩
  · rcases hbound with hle | hnil0
    · left
      rw [hres]
      show (sumBytes bs (mapSet s1.cache (getKey fileId timeIndex) ⟨d, now⟩) : Int) ≤
        SLICE_CACHE_SIZE_B
      have h1 : (sumBytes bs (mapSet s1.cache (getKey fileId timeIndex) ⟨d, now⟩) : Int)
          ≤ (sumBytes bs s1.cache : Int) + (bs d : Int) := by
        exact_mod_cast hsumle
      omega
    · right
      rw [hres]
      show (mapSet s1.cache (getKey fileId timeIndex) ⟨d, now⟩).length = 1
      rw [hnil0, mapSet_nil]
      rfl

theorem empty_wf {α : Type} (bs : α → Nat) : WellFormed bs (empty α) := by
  refine ⟨List.nodup_nil, ?_, ?_⟩
  · intro p hp
    cases hp
  · show (sumBytes bs ([] : List (Key × CacheEntry α)) : Int) ≤ 0
    unfold sumBytes
    simp

theorem runPuts_wf_inv {α : Type} (bs : α → Nat) (ops : List (PutOp α)) :
    ∀ s : CacheState α, WellFormed bs s →
      ((sumBytes bs s.cache : Int) ≤ SLICE_CACHE_SIZE_B ∨ s.cache.length = 1) →
      WellFormed bs (runPuts bs s ops) ∧
      ((sumBytes bs (runPuts bs s ops).cache : Int) ≤ SLICE_CACHE_SIZE_B ∨
        (runPuts bs s ops).cache.length = 1) := by
  induction ops with
  | nil => intro s hwf hinv; exact ⟨hwf, hinv⟩
  | cons op rest ih =>
    intro s hwf _
    obtain ⟨hwf', hinv'⟩ :=
      setOp_wf_inv bs op.fileId op.timeIndex op.data op.now s hwf
    exact ih _ hwf' hinv'

/-- C1 — Cache byte-budget invariant: after any sequence of `set` calls on
an initially empty cache, the sum of the byte sizes of all cached entries is
at most the 256 MiB budget, or the cache holds exactly one entry (the
oversized-singleton case: `set` evicts down to the empty cache and then
stores the oversized entry anyway).  Since this holds for every sequence of
puts, it holds at every intermediate point of a longer sequence as well. -/
theorem cache_byte_budget_invariant (ops : List (PutOp SliceData)) :
    (sumBytes SliceData.byteLength
        (runPuts SliceData.byteLength (empty SliceData) ops).cache : Int) ≤
      SLICE_CACHE_SIZE_B ∨
    (runPuts SliceData.byteLength (empty SliceData) ops).cache.length = 1 :=
  (runPuts_wf_inv SliceData.byteLength ops (empty SliceData)
    (empty_wf SliceData.byteLength)
    (Or.inl (by
      show (sumBytes SliceData.byteLength ([] : List (Key × CacheEntry SliceData)) : Int) ≤
        SLICE_CACHE_SIZE_B
      unfold sumBytes SLICE_CACHE_SIZE_B
      simp))).2

end SliceCache

end Lunagis

namespace Lunagis

namespace SliceCache

/-- C7 — the code violates the no-double-counting claim: re-`set`ting the
same `(fileId, timeIndex)` key leaves exactly one surviving entry (JS
`Map.set` overwrites), but `set` adds the new entry's size to
`currentSizeMB` without subtracting the overwritten entry's size, so after
putting a 1-byte entry twice under the same key the accounting reads 2
bytes while the single surviving entry is 1 byte. -/
theorem set_same_key_double_counts :
    (runPuts SliceData.byteLength (empty SliceData)
        [⟨"a".toList, 0, .u8 [0], 1⟩, ⟨"a".toList, 0, .u8 [7], 2⟩]).cache.length = 1 ∧
    sumBytes SliceData.byteLength
      (runPuts SliceData.byteLength (empty SliceData)
        [⟨"a".toList, 0, .u8 [0], 1⟩, ⟨"a".toList, 0, .u8 [7], 2⟩]).cache = 1 ∧
    (runPuts SliceData.byteLength (empty SliceData)
        [⟨"a".toList, 0, .u8 [0], 1⟩, ⟨"a".toList, 0, .u8 [7], 2⟩]).currentSize = 2 := by
  refine ⟨?_, ?_, ?_⟩ <;> decide

end SliceCache

end Lunagis

namespace Lunagis

namespace SliceCache

theorem evictLoop_no_evict {α : Type} (bs : α → Nat) (sz fuel : Nat)
    (s : CacheState α) (hle : s.currentSize + (sz : Int) ≤ SLICE_CACHE_SIZE_B) :
    evictLoop bs sz fuel s = s := by
  cases fuel with
  | zero => rfl
  | succ n =>
    unfold evictLoop
    rw [if_neg]
    intro h
    omega

theorem setOp_no_evict {α : Type} (bs : α → Nat) (fileId : Key)
    (timeIndex : Nat) (d : α) (now : Nat) (s : CacheState α)
    (hle : s.currentSize + (bs d : Int) ≤ SLICE_CACHE_SIZE_B) :
    setOp bs fileId timeIndex d now s =
      { cache := mapSet s.cache (getKey fileId timeIndex) ⟨d, now⟩,
        currentSize := s.currentSize + (bs d : Int) } := by
  show ({ cache := mapSet (evictLoop bs (bs d) s.cache.length s).cache
            (getKey fileId timeIndex) ⟨d, now⟩,
          currentSize := (evictLoop bs (bs d) s.cache.length s).currentSize +
            (bs d : Int) } : CacheState α) = _
  rw [evictLoop_no_evict bs (bs d) s.cache.length s hle]

theorem setOp_one_evict {α : Type} (bs : α → Nat) (fileId : Key)
    (timeIndex : Nat) (d : α) (now : Nat) (s : CacheState α)
    (hgt : s.currentSize + (bs d : Int) > SLICE_CACHE_SIZE_B)
    (hne : s.cache.length > 0)
    (hafter : (evictLRUStep bs s).currentSize + (bs d : Int) ≤ SLICE_CACHE_SIZE_B) :
    setOp bs fileId timeIndex d now s =
      { cache := mapSet (evictLRUStep bs s).cache (getKey fileId timeIndex) ⟨d, now⟩,
        currentSize := (evictLRUStep bs s).currentSize + (bs d : Int) } := by
  show ({ cache := mapSet (evictLoop bs (bs d) s.cache.length s).cache
            (getKey fileId timeIndex) ⟨d, now⟩,
          currentSize := (evictLoop bs (bs d) s.cache.length s).currentSize +
            (bs d : Int) } : CacheState α) = _
  obtain ⟨n, hn⟩ : ∃ n, s.cache.length = n + 1 :=
    ⟨s.cache.length - 1, by omega⟩
  rw [hn]
  unfold evictLoop
  rw [if_pos ⟨hgt, by omega⟩, evictLoop_no_evict bs (bs d) n _ hafter]

end SliceCache

end Lunagis

namespace Lunagis

namespace SliceCache

theorem evictLRUStep_eq {α : Type} (bs : α → Nat) (s : CacheState α)
    (k : Key) (t : Nat) (e : CacheEntry α)
    (hfind : findOldestAux none s.cache = some (k, t)) (hk : ¬ k = ([] : Key))
    (hget : mapGet s.cache k = some e) :
    evictLRUStep bs s =
      { cache := s.cache.filter (fun p => ¬ p.1 = k),
        currentSize := s.currentSize - (bs e.data : Int) } := by
  unfold evictLRUStep
  rw [hfind]
  show (if k = [] then s
        else match mapGet s.cache k with
          | none => s
          | some e =>
            { cache := s.cache.filter (fun p => ¬ p.1 = k),
              currentSize := s.currentSize - (bs e.data : Int) }) = _
  rw [if_neg hk, hget]

theorem getOp_hit {α : Type} (fileId : Key) (timeIndex now : Nat)
    (s : CacheState α) (e : CacheEntry α)
    (hget : mapGet s.cache (getKey fileId timeIndex) = some e) :
    getOp fileId timeIndex now s =
      ({ s with cache := s.cache.map (fun p : Key × CacheEntry α =>
          if p.1 = getKey fileId timeIndex then (p.1, ⟨e.data, now⟩) else p) },
        some e.data) := by
  unfold getOp
  show (match mapGet s.cache (getKey fileId timeIndex) with
        | some e =>
          ({ s with cache := s.cache.map (fun p : Key × CacheEntry α =>
              if p.1 = getKey fileId timeIndex then (p.1, ⟨e.data, now⟩) else p) },
            some e.data)
        | none => (s, none)) = _
  rw [hget]

end SliceCache

end Lunagis

namespace Lunagis

namespace SliceCache

/-- C6 — Strict LRU eviction order: insert A, B, C in that order (no
intervening `get`, clock non-decreasing) into an empty cache without
triggering eviction, then `set` a fourth entry D whose size forces exactly
one eviction: A, the entry with the oldest last-access time, is the one
evicted (B, C, D remain, in that order).  Moreover a `get` hit on A
updates A's `lastAccess` to the current time `g`, so the same forcing
`set` issued after `get(A)` evicts B instead (A, C, D remain). -/
theorem lru_eviction_order (fA fB fC fD : Key) (tA tB tC tD : Nat)
    (dA dB dC dD : SliceData) (nA nB nC nD g : Nat)
    (hAB : getKey fA tA ≠ getKey fB tB) (hAC : getKey fA tA ≠ getKey fC tC)
    (hAD : getKey fA tA ≠ getKey fD tD) (hBC : getKey fB tB ≠ getKey fC tC)
    (hBD : getKey fB tB ≠ getKey fD tD) (hCD : getKey fC tC ≠ getKey fD tD)
    (hnAB : nA ≤ nB) (hnBC : nB ≤ nC) (hnBg : nB < g)
    (h1 : (SliceData.byteLength dA : Int) + SliceData.byteLength dB ≤
      SLICE_CACHE_SIZE_B)
    (h2 : (SliceData.byteLength dA : Int) + SliceData.byteLength dB +
      SliceData.byteLength dC ≤ SLICE_CACHE_SIZE_B)
    (h3 : (SliceData.byteLength dA : Int) + SliceData.byteLength dB +
      SliceData.byteLength dC + SliceData.byteLength dD > SLICE_CACHE_SIZE_B)
    (h4 : (SliceData.byteLength dB : Int) + SliceData.byteLength dC +
      SliceData.byteLength dD ≤ SLICE_CACHE_SIZE_B)
    (h5 : (SliceData.byteLength dA : Int) + SliceData.byteLength dC +
      SliceData.byteLength dD ≤ SLICE_CACHE_SIZE_B) :
    keysOf (setOp SliceData.byteLength fD tD dD nD
        (runPuts SliceData.byteLength (empty SliceData)
          [⟨fA, tA, dA, nA⟩, ⟨fB, tB, dB, nB⟩, ⟨fC, tC, dC, nC⟩])).cache =
      [getKey fB tB, getKey fC tC, getKey fD tD] ∧
    (getOp fA tA g
        (runPuts SliceData.byteLength (empty SliceData)
          [⟨fA, tA, dA, nA⟩, ⟨fB, tB, dB, nB⟩, ⟨fC, tC, dC, nC⟩])).2 =
      some dA ∧
    mapGet (getOp fA tA g
        (runPuts SliceData.byteLength (empty SliceData)
          [⟨fA, tA, dA, nA⟩, ⟨fB, tB, dB, nB⟩, ⟨fC, tC, dC, nC⟩])).1.cache
        (getKey fA tA) = some ⟨dA, g⟩ ∧
    keysOf (setOp SliceData.byteLength fD tD dD nD
        (getOp fA tA g
          (runPuts SliceData.byteLength (empty SliceData)
            [⟨fA, tA, dA, nA⟩, ⟨fB, tB, dB, nB⟩, ⟨fC, tC, dC, nC⟩])).1).cache =
      [getKey fA tA, getKey fC tC, getKey fD tD] := by
  set bs := SliceData.byteLength with hbs
  set kA := getKey fA tA with hkA
  set kB := getKey fB tB with hkB
  set kC := getKey fC tC with hkC
  set kD := getKey fD tD with hkD
  set eA : CacheEntry SliceData := ⟨dA, nA⟩ with heA
  set eB : CacheEntry SliceData := ⟨dB, nB⟩ with heB
  set eC : CacheEntry SliceData := ⟨dC, nC⟩ with heC
  have hs1 : setOp bs fA tA dA nA (empty SliceData) =
      ⟨[(kA, eA)], 0 + (bs dA : Int)⟩ := by
    rw [setOp_no_evict bs fA tA dA nA (empty SliceData) (by
      show (0 : Int) + (bs dA : Int) ≤ SLICE_CACHE_SIZE_B
      omega)]
    rfl
  have hs2 : setOp bs fB tB dB nB ⟨[(kA, eA)], 0 + (bs dA : Int)⟩ =
      ⟨[(kA, eA), (kB, eB)], 0 + (bs dA : Int) + (bs dB : Int)⟩ := by
    rw [setOp_no_evict bs fB tB dB nB _ (by
      show (0 : Int) + (bs dA : Int) + (bs dB : Int) ≤ SLICE_CACHE_SIZE_B
      omega)]
    rw [show (⟨[(kA, eA)], 0 + (bs dA : Int)⟩ : CacheState SliceData).cache =
      [(kA, eA)] from rfl]
    rw [mapSet_of_not_mem _ (by
      simp only [keysOf, List.map_cons, List.map_nil, List.mem_singleton]
      exact Ne.symm hAB)]
    rfl
  have hs3 : setOp bs fC tC dC nC
        ⟨[(kA, eA), (kB, eB)], 0 + (bs dA : Int) + (bs dB : Int)⟩ =
      ⟨[(kA, eA), (kB, eB), (kC, eC)],
        0 + (bs dA : Int) + (bs dB : Int) + (bs dC : Int)⟩ := by
    rw [setOp_no_evict bs fC tC dC nC _ (by
      show (0 : Int) + (bs dA : Int) + (bs dB : Int) + (bs dC : Int) ≤
        SLICE_CACHE_SIZE_B
      omega)]
    rw [show (⟨[(kA, eA), (kB, eB)],
        0 + (bs dA : Int) + (bs dB : Int)⟩ : CacheState SliceData).cache =
      [(kA, eA), (kB, eB)] from rfl]
    rw [mapSet_of_not_mem _ (by
      simp only [keysOf, List.map_cons, List.map_nil, List.mem_cons,
        List.mem_singleton, List.not_mem_nil, or_false]
      push_neg
      exact ⟨Ne.symm hAC, Ne.symm hBC⟩)]
    rfl
  have hrun : runPuts bs (empty SliceData)
        [⟨fA, tA, dA, nA⟩, ⟨fB, tB, dB, nB⟩, ⟨fC, tC, dC, nC⟩] =
      ⟨[(kA, eA), (kB, eB), (kC, eC)],
        0 + (bs dA : Int) + (bs dB : Int) + (bs dC : Int)⟩ := by
    show setOp bs fC tC dC nC (setOp bs fB tB dB nB
      (setOp bs fA tA dA nA (empty SliceData))) = _
    rw [hs1, hs2, hs3]
  set s3 : CacheState SliceData :=
    ⟨[(kA, eA), (kB, eB), (kC, eC)],
      0 + (bs dA : Int) + (bs dB : Int) + (bs dC : Int)⟩ with hs3lit
  have hfindA : findOldestAux none s3.cache = some (kA, nA) := by
    show findOldestAux (some (kA, nA)) [(kB, eB), (kC, eC)] = some (kA, nA)
    rw [show findOldestAux (some (kA, nA)) [(kB, eB), (kC, eC)] =
        if nB < nA then findOldestAux (some (kB, nB)) [(kC, eC)]
        else findOldestAux (some (kA, nA)) [(kC, eC)] from rfl]
    rw [if_neg (not_lt.mpr hnAB)]
    rw [show findOldestAux (some (kA, nA)) [(kC, eC)] =
        if nC < nA then findOldestAux (some (kC, nC)) []
        else findOldestAux (some (kA, nA)) [] from rfl]
    rw [if_neg (not_lt.mpr (le_trans hnAB hnBC))]
    rfl
  have hgetA : mapGet s3.cache kA = some eA := by
    unfold mapGet
    rw [List.find?_cons_of_pos _ (by simp)]
    rfl
  have hfilterA : s3.cache.filter (fun p => ¬ p.1 = kA) = [(kB, eB), (kC, eC)] := by
    show [(kA, eA), (kB, eB), (kC, eC)].filter (fun p => ¬ p.1 = kA) = _
    simp [List.filter_cons, Ne.symm hAB, Ne.symm hAC]
  have hevictA : evictLRUStep bs s3 =
      ⟨[(kB, eB), (kC, eC)],
        0 + (bs dA : Int) + (bs dB : Int) + (bs dC : Int) - (bs dA : Int)⟩ := by
    rw [evictLRUStep_eq bs s3 kA nA eA hfindA (getKey_ne_nil fA tA) hgetA,
      hfilterA]
  refine ⟨?_, ?_, ?_, ?_⟩
  · rw [hrun]
    have hs3size : s3.currentSize =
        0 + (bs dA : Int) + (bs dB : Int) + (bs dC : Int) := rfl
    rw [setOp_one_evict bs fD tD dD nD s3
      (by rw [hs3size]; omega)
      (by show (0 : Nat) < 3; omega)
      (by
        rw [hevictA]
        show 0 + (bs dA : Int) + (bs dB : Int) + (bs dC : Int) -
          (bs dA : Int) + (bs dD : Int) ≤ SLICE_CACHE_SIZE_B
        omega)]
    rw [hevictA]
    rw [show (⟨[(kB, eB), (kC, eC)],
        0 + (bs dA : Int) + (bs dB : Int) + (bs dC : Int) - (bs dA : Int)⟩ :
        CacheState SliceData).cache = [(kB, eB), (kC, eC)] from rfl]
    rw [mapSet_of_not_mem _ (by
      simp only [keysOf, List.map_cons, List.map_nil, List.mem_cons,
        List.mem_singleton, List.not_mem_nil, or_false]
      push_neg
      exact ⟨Ne.symm hBD, Ne.symm hCD⟩)]
    simp [keysOf]
  · rw [hrun, getOp_hit fA tA g s3 eA hgetA]
  · rw [hrun, getOp_hit fA tA g s3 eA hgetA]
    show mapGet ([(kA, eA), (kB, eB), (kC, eC)].map (fun p : Key × CacheEntry SliceData =>
      if p.1 = kA then (p.1, ⟨eA.data, g⟩) else p)) kA = some ⟨dA, g⟩
    rw [show ([(kA, eA), (kB, eB), (kC, eC)].map (fun p : Key × CacheEntry SliceData =>
        if p.1 = kA then (p.1, ⟨eA.data, g⟩) else p)) =
      [(kA, ⟨dA, g⟩), (kB, eB), (kC, eC)] from by
        simp [Ne.symm hAB, Ne.symm hAC]]
    unfold mapGet
    rw [List.find?_cons_of_pos _ (by simp)]
    rfl
  · rw [hrun, getOp_hit fA tA g s3 eA hgetA]
    have hmap : s3.cache.map (fun p : Key × CacheEntry SliceData =>
        if p.1 = kA then (p.1, ⟨eA.data, g⟩) else p) =
      [(kA, ⟨dA, g⟩), (kB, eB), (kC, eC)] := by
      show [(kA, eA), (kB, eB), (kC, eC)].map _ = _
      simp [Ne.symm hAB, Ne.symm hAC]
    set s3g : CacheState SliceData :=
      { s3 with cache := s3.cache.map (fun p : Key × CacheEntry SliceData =>
          if p.1 = kA then (p.1, ⟨eA.data, g⟩) else p) } with hs3g
    have hs3gc : s3g.cache = [(kA, ⟨dA, g⟩), (kB, eB), (kC, eC)] := hmap
    have hs3gs : s3g.currentSize =
        0 + (bs dA : Int) + (bs dB : Int) + (bs dC : Int) := rfl
    have hfindB : findOldestAux none s3g.cache = some (kB, nB) := by
      rw [hs3gc]
      show findOldestAux (some (kA, g)) [(kB, eB), (kC, eC)] = some (kB, nB)
      rw [show findOldestAux (some (kA, g)) [(kB, eB), (kC, eC)] =
          if nB < g then findOldestAux (some (kB, nB)) [(kC, eC)]
          else findOldestAux (some (kA, g)) [(kC, eC)] from rfl]
      rw [if_pos hnBg]
      rw [show findOldestAux (some (kB, nB)) [(kC, eC)] =
          if nC < nB then findOldestAux (some (kC, nC)) []
          else findOldestAux (some (kB, nB)) [] from rfl]
      rw [if_neg (not_lt.mpr hnBC)]
      rfl
    have hgetB : mapGet s3g.cache kB = some eB := by
      rw [hs3gc]
      unfold mapGet
      rw [List.find?_cons_of_neg _ (by simp [hAB]),
        List.find?_cons_of_pos _ (by simp)]
      rfl
    have hfilterB : s3g.cache.filter (fun p => ¬ p.1 = kB) =
        [(kA, ⟨dA, g⟩), (kC, eC)] := by
      rw [hs3gc]
      simp [List.filter_cons, hAB, Ne.symm hBC]
    have hevictB : evictLRUStep bs s3g =
        ⟨[(kA, ⟨dA, g⟩), (kC, eC)],
          0 + (bs dA : Int) + (bs dB : Int) + (bs dC : Int) - (bs dB : Int)⟩ := by
      rw [evictLRUStep_eq bs s3g kB nB eB hfindB (getKey_ne_nil fB tB) hgetB,
        hfilterB, hs3gs]
    rw [setOp_one_evict bs fD tD dD nD s3g
      (by rw [hs3gs]; omega)
      (by rw [show s3g.cache.length = 3 from by rw [hs3gc]; rfl]; omega)
      (by
        rw [hevictB]
        show 0 + (bs dA : Int) + (bs dB : Int) + (bs dC : Int) -
          (bs dB : Int) + (bs dD : Int) ≤ SLICE_CACHE_SIZE_B
        omega)]
    rw [hevictB]
    rw [show (⟨[(kA, ⟨dA, g⟩), (kC, eC)],
        0 + (bs dA : Int) + (bs dB : Int) + (bs dC : Int) - (bs dB : Int)⟩ :
        CacheState SliceData).cache = [(kA, ⟨dA, g⟩), (kC, eC)] from rfl]
    rw [mapSet_of_not_mem _ (by
      simp only [keysOf, List.map_cons, List.map_nil, List.mem_cons,
        List.mem_singleton, List.not_mem_nil, or_false]
      push_neg
      exact ⟨Ne.symm hAD, Ne.symm hCD⟩)]
    simp [keysOf]

end SliceCache

end Lunagis

namespace Lunagis

namespace SliceCache


theorem bigSlice_size : (SliceData.byteLength bigSlice : Int) = 83886080 := by
  show ((List.replicate 83886080 (0 : Int)).length : Int) = 83886080
  rw [List.length_replicate]
  norm_num

/-- Witness for `lru_eviction_order`: datasets `A`, `B`, `C`, `D`, each
entry 80 MiB, inserted at clock times 1, 2, 3, with the probe `get` at
time 5 and the forcing put at time 4. -/
theorem lru_eviction_order_witness :
    keysOf (setOp SliceData.byteLength "D".toList 0 bigSlice 4
        (runPuts SliceData.byteLength (empty SliceData)
          [⟨"A".toList, 0, bigSlice, 1⟩, ⟨"B".toList, 0, bigSlice, 2⟩,
            ⟨"C".toList, 0, bigSlice, 3⟩])).cache =
      [getKey "B".toList 0, getKey "C".toList 0, getKey "D".toList 0] ∧
    (getOp "A".toList 0 5
        (runPuts SliceData.byteLength (empty SliceData)
          [⟨"A".toList, 0, bigSlice, 1⟩, ⟨"B".toList, 0, bigSlice, 2⟩,
            ⟨"C".toList, 0, bigSlice, 3⟩])).2 = some bigSlice ∧
    mapGet (getOp "A".toList 0 5
        (runPuts SliceData.byteLength (empty SliceData)
          [⟨"A".toList, 0, bigSlice, 1⟩, ⟨"B".toList, 0, bigSlice, 2⟩,
            ⟨"C".toList, 0, bigSlice, 3⟩])).1.cache
        (getKey "A".toList 0) = some ⟨bigSlice, 5⟩ ∧
    keysOf (setOp SliceData.byteLength "D".toList 0 bigSlice 4
        (getOp "A".toList 0 5
          (runPuts SliceData.byteLength (empty SliceData)
            [⟨"A".toList, 0, bigSlice, 1⟩, ⟨"B".toList, 0, bigSlice, 2⟩,
              ⟨"C".toList, 0, bigSlice, 3⟩])).1).cache =
      [getKey "A".toList 0, getKey "C".toList 0, getKey "D".toList 0] :=
  lru_eviction_order "A".toList "B".toList "C".toList "D".toList 0 0 0 0
    bigSlice bigSlice bigSlice bigSlice 1 2 3 4 5
    (by decide) (by decide) (by decide) (by decide) (by decide) (by decide)
    (by decide) (by decide) (by decide)
    (by rw [bigSlice_size]; unfold SLICE_CACHE_SIZE_B; norm_num)
    (by rw [bigSlice_size]; unfold SLICE_CACHE_SIZE_B; norm_num)
    (by rw [bigSlice_size]; unfold SLICE_CACHE_SIZE_B; norm_num)
    (by rw [bigSlice_size]; unfold SLICE_CACHE_SIZE_B; norm_num)
    (by rw [bigSlice_size]; unfold SLICE_CACHE_SIZE_B; norm_num)

end SliceCache

end Lunagis

namespace Lunagis

namespace SliceCache

theorem colonKeyPrefixIff {d : List Char} (f r : List Char)
    (hd : ':' ∉ d) (hf : ':' ∉ f) :
    (d ++ [':']) <+: (f ++ ':' :: r) ↔ d = f := by
  constructor
  · intro h
    induction d generalizing f with
    | nil =>
      cases f with
      | nil => rfl
      | cons c f' =>
        simp only [List.nil_append, List.cons_append] at h
        rw [List.cons_prefix_cons] at h
        exact absurd (by rw [h.1]; exact List.mem_cons_self _ _) hf
    | cons c d' ih =>
      cases f with
      | nil =>
        simp only [List.cons_append, List.nil_append] at h
        rw [List.cons_prefix_cons] at h
        exact absurd (by rw [← h.1]; exact List.mem_cons_self _ _) hd
      | cons c' f' =>
        simp only [List.cons_append] at h
        rw [List.cons_prefix_cons] at h
        have hd' : ':' ∉ d' := fun hc => hd (List.mem_cons_of_mem _ hc)
        have hf' : ':' ∉ f' := fun hc => hf (List.mem_cons_of_mem _ hc)
        have := ih f' hd' hf' h.2
        rw [h.1, this]
  · intro h
    rw [h, List.append_cons f ':' r]
    exact List.prefix_append _ _

theorem isPrefixOf_getKey {d : List Char} (f : List Char) (t : Nat)
    (hd : ':' ∉ d) (hf : ':' ∉ f) :
    (d ++ [':']).isPrefixOf (getKey f t) = decide (f = d) := by
  unfold getKey
  by_cases h : f = d
  · rw [decide_eq_true h]
    rw [List.isPrefixOf_iff_prefix]
    exact (colonKeyPrefixIff f (natChars t) hd hf).mpr h.symm
  · rw [decide_eq_false h]
    rw [← Bool.not_eq_true, List.isPrefixOf_iff_prefix]
    intro hp
    exact h ((colonKeyPrefixIff f (natChars t) hd hf).mp hp).symm

end SliceCache

end Lunagis

namespace Lunagis

namespace SliceCache

/-- C9 counterexample — `clearForFile` matches by string prefix
(`key.startsWith(fileId + ":")`), so clearing dataset `"a"` also deletes
the entries of the distinct dataset `"a:0"` (whose keys such as `"a:0:0"`
start with `"a:"`): after caching one slice for each of the two datasets,
`clearForFile("a")` empties the cache entirely, contradicting the claim
that entries of every other dataset remain. -/
theorem clearForFile_cross_dataset :
    (runPuts SliceData.byteLength (empty SliceData)
        [⟨"a".toList, 0, .u8 [1], 1⟩, ⟨"a:0".toList, 0, .u8 [2], 2⟩]).cache.length = 2 ∧
    mapGet (runPuts SliceData.byteLength (empty SliceData)
        [⟨"a".toList, 0, .u8 [1], 1⟩, ⟨"a:0".toList, 0, .u8 [2], 2⟩]).cache
      (getKey "a:0".toList 0) = some ⟨.u8 [2], 2⟩ ∧
    ("a:0".toList ≠ "a".toList) ∧
    (clearForFile SliceData.byteLength "a".toList
      (runPuts SliceData.byteLength (empty SliceData)
        [⟨"a".toList, 0, .u8 [1], 1⟩, ⟨"a:0".toList, 0, .u8 [2], 2⟩])).cache = [] := by
  refine ⟨?_, ?_, ?_, ?_⟩ <;> decide

/-- C9 (amended) — For colon-free dataset identifiers, `clearForFile(d)`
removes all and only the entries whose dataset component is `d`: on a cache
whose entries are keyed by `getKey` over an association list `L` of
`(fileId, timeIndex, entry)` triples with colon-free identifiers, the
surviving entries are exactly those of the other datasets, preserved
verbatim (same data and same `lastAccessTimestamp`), and when no entry
belongs to `d` the call leaves the state completely unchanged (safe
no-op). -/
theorem clearForFile_frame {α : Type} (bs : α → Nat) (d : Key)
    (L : List (Key × Nat × CacheEntry α)) (cz : Int)
    (hcolon : ∀ q ∈ L, ':' ∉ q.1) (hd : ':' ∉ d) :
    (clearForFile bs d
        ⟨L.map (fun q => (getKey q.1 q.2.1, q.2.2)), cz⟩).cache
      = (L.filter (fun q => ¬ q.1 = d)).map
          (fun q => (getKey q.1 q.2.1, q.2.2)) ∧
    ((∀ q ∈ L, q.1 ≠ d) →
      clearForFile bs d ⟨L.map (fun q => (getKey q.1 q.2.1, q.2.2)), cz⟩ =
        ⟨L.map (fun q => (getKey q.1 q.2.1, q.2.2)), cz⟩) := by
  have hkeep : (L.map (fun q => (getKey q.1 q.2.1, q.2.2))).filter
      (fun p => ¬ (d ++ [':']).isPrefixOf p.1)
      = (L.filter (fun q => ¬ q.1 = d)).map
          (fun q => (getKey q.1 q.2.1, q.2.2)) := by
    rw [List.filter_map]
    congr 1
    apply List.filter_congr
    intro q hq
    simp only [Function.comp_apply]
    rw [isPrefixOf_getKey q.1 q.2.1 hd (hcolon q hq)]
    by_cases hqd : q.1 = d <;> simp [hqd]
  constructor
  · show (L.map (fun q => (getKey q.1 q.2.1, q.2.2))).filter
        (fun p => ¬ (d ++ [':']).isPrefixOf p.1) = _
    exact hkeep
  · intro hnone
    have hmatch : (L.map (fun q => (getKey q.1 q.2.1, q.2.2))).filter
        (fun p => (d ++ [':']).isPrefixOf p.1) = [] := by
      rw [List.filter_map]
      rw [List.filter_eq_nil_iff.mpr]
      · rfl
      · intro q hq
        simp only [Function.comp_apply]
        rw [isPrefixOf_getKey q.1 q.2.1 hd (hcolon q hq)]
        simp [hnone q hq]
    have hall : L.filter (fun q => ¬ q.1 = d) = L :=
      List.filter_eq_self.mpr (fun q hq => by simp [hnone q hq])
    unfold clearForFile
    rw [hkeep, hmatch, hall]
    show (⟨L.map (fun q => (getKey q.1 q.2.1, q.2.2)),
      cz - (sumBytes bs ([] : List (Key × CacheEntry α)) : Int)⟩ : CacheState α) = _
    rw [show sumBytes bs ([] : List (Key × CacheEntry α)) = 0 from rfl]
    rw [show ((0 : Nat) : Int) = 0 from rfl, sub_zero]

/-- Witness for `clearForFile_frame`: two datasets `u` and `v`, one entry
each; clearing `u` keeps exactly `v`'s entry with its timestamp, and
clearing `w` (no entries) is a no-op. -/
theorem clearForFile_frame_witness :
    ((∀ q ∈ [("u".toList, (0 : Nat), (⟨.u8 [1], 7⟩ : CacheEntry SliceData)),
        ("v".toList, (1 : Nat), (⟨.u8 [2], 9⟩ : CacheEntry SliceData))], ':' ∉ q.1) ∧
      ':' ∉ "u".toList) ∧
    ((clearForFile SliceData.byteLength "u".toList
        ⟨[("u".toList, (0 : Nat), (⟨.u8 [1], 7⟩ : CacheEntry SliceData)),
            ("v".toList, (1 : Nat), (⟨.u8 [2], 9⟩ : CacheEntry SliceData))].map
          (fun q => (getKey q.1 q.2.1, q.2.2)), (3 : Int)⟩).cache
      = ([("u".toList, (0 : Nat), (⟨.u8 [1], 7⟩ : CacheEntry SliceData)),
          ("v".toList, (1 : Nat), (⟨.u8 [2], 9⟩ : CacheEntry SliceData))].filter
            (fun q => ¬ q.1 = "u".toList)).map
          (fun q => (getKey q.1 q.2.1, q.2.2)) ∧
    ((∀ q ∈ [("u".toList, (0 : Nat), (⟨.u8 [1], 7⟩ : CacheEntry SliceData)),
        ("v".toList, (1 : Nat), (⟨.u8 [2], 9⟩ : CacheEntry SliceData))], q.1 ≠ "u".toList) →
      clearForFile SliceData.byteLength "u".toList
          ⟨[("u".toList, (0 : Nat), (⟨.u8 [1], 7⟩ : CacheEntry SliceData)),
              ("v".toList, (1 : Nat), (⟨.u8 [2], 9⟩ : CacheEntry SliceData))].map
            (fun q => (getKey q.1 q.2.1, q.2.2)), (3 : Int)⟩ =
        ⟨[("u".toList, (0 : Nat), (⟨.u8 [1], 7⟩ : CacheEntry SliceData)),
            ("v".toList, (1 : Nat), (⟨.u8 [2], 9⟩ : CacheEntry SliceData))].map
          (fun q => (getKey q.1 q.2.1, q.2.2)), (3 : Int)⟩)) :=
  ⟨⟨by decide, by decide⟩,
    clearForFile_frame SliceData.byteLength "u".toList
      [("u".toList, 0, ⟨.u8 [1], 7⟩), ("v".toList, 1, ⟨.u8 [2], 9⟩)] 3
      (by decide) (by decide)⟩

end SliceCache

end Lunagis

namespace Lunagis



namespace SliceCache

theorem getOp_miss {α : Type} (fileId : Key) (timeIndex now : Nat)
    (s : CacheState α)
    (hget : mapGet s.cache (getKey fileId timeIndex) = none) :
    getOp fileId timeIndex now s = (s, none) := by
  unfold getOp
  show (match mapGet s.cache (getKey fileId timeIndex) with
        | some e =>
          ({ s with cache := s.cache.map (fun p : Key × CacheEntry α =>
              if p.1 = getKey fileId timeIndex then (p.1, ⟨e.data, now⟩) else p) },
            some e.data)
        | none => (s, none)) = _
  rw [hget]

theorem keysOf_map_update {α : Type} (m : List (Key × CacheEntry α))
    (k : Key) (v : CacheEntry α) :
    keysOf (m.map (fun p => if p.1 = k then (p.1, v) else p)) = keysOf m := by
  unfold keysOf
  rw [List.map_map]
  apply List.map_congr_left
  intro p _
  by_cases hp : p.1 = k <;> simp [hp]

theorem mapGet_map_update {α : Type} {m : List (Key × CacheEntry α)}
    {k : Key} {e : CacheEntry α} (v : CacheEntry α)
    (hget : mapGet m k = some e) :
    mapGet (m.map (fun p => if p.1 = k then (p.1, v) else p)) k = some v := by
  induction m with
  | nil => simp [mapGet] at hget
  | cons p m ih =>
    by_cases hp : p.1 = k
    · unfold mapGet
      rw [List.map_cons, if_pos hp]
      rw [List.find?_cons_of_pos _ (by simpa using hp)]
      rfl
    · unfold mapGet at hget ⊢
      rw [List.find?_cons_of_neg _ (by simpa using hp)] at hget
      rw [List.map_cons, if_neg hp, List.find?_cons_of_neg _ (by simpa using hp)]
      exact ih hget

theorem entry_unique {α : Type} {m : List (Key × CacheEntry α)} {k : Key}
    {e1 e2 : CacheEntry α} (hnd : (keysOf m).Nodup)
    (h1 : (k, e1) ∈ m) (h2 : (k, e2) ∈ m) : e1 = e2 := by
  have g1 := mapGet_eq_some_of_mem hnd h1
  have g2 := mapGet_eq_some_of_mem hnd h2
  rw [g1] at g2
  simpa using g2

end SliceCache

end Lunagis

namespace Lunagis

namespace SliceCache

/-- C10 — `getCachedSlice` is a pure cache probe with one observable side
effect: both dataset variants delegate to the shared cache's `get`, which
performs no read (the backing reader is not even an argument of the probe),
neither inserts nor removes entries and leaves the byte accounting
untouched; on a miss the state is completely unchanged; on a hit the hit
entry's `lastAccessTimestamp` is bumped to the probe time `now` (data
unchanged, all other entries untouched), so a subsequent eviction spares
the probed slice whenever any other entry is strictly older than the
probe. -/
theorem getCachedSlice_frame (fileId : Key) (timeIndex now : Nat)
    (s : CacheState SliceData) (hnd : (keysOf s.cache).Nodup)
    (hnil : ∀ p ∈ s.cache, p.1 ≠ ([] : Key)) :
    netcdfGetCachedSlice fileId timeIndex now s = getOp fileId timeIndex now s ∧
    npyGetCachedSlice fileId timeIndex now s = getOp fileId timeIndex now s ∧
    keysOf (getOp fileId timeIndex now s).1.cache = keysOf s.cache ∧
    (getOp fileId timeIndex now s).1.currentSize = s.currentSize ∧
    (mapGet s.cache (getKey fileId timeIndex) = none →
      getOp fileId timeIndex now s = (s, none)) ∧
    ∀ e, mapGet s.cache (getKey fileId timeIndex) = some e →
      (getOp fileId timeIndex now s).2 = some e.data ∧
      mapGet (getOp fileId timeIndex now s).1.cache (getKey fileId timeIndex) =
        some ⟨e.data, now⟩ ∧
      (∀ p ∈ s.cache, p.1 ≠ getKey fileId timeIndex →
        p ∈ (getOp fileId timeIndex now s).1.cache) ∧
      ((∃ q ∈ (getOp fileId timeIndex now s).1.cache, q.2.lastAccess < now) →
        (getKey fileId timeIndex, (⟨e.data, now⟩ : CacheEntry SliceData)) ∈
          (evictLRUStep SliceData.byteLength
            (getOp fileId timeIndex now s).1).cache) := by
  set key := getKey fileId timeIndex with hkey
  refine ⟨rfl, rfl, ?_, ?_, getOp_miss fileId timeIndex now s, ?_⟩
  · cases hget : mapGet s.cache key with
    | none => rw [getOp_miss fileId timeIndex now s hget]
    | some e =>
      rw [getOp_hit fileId timeIndex now s e hget]
      exact keysOf_map_update s.cache key ⟨e.data, now⟩
  · cases hget : mapGet s.cache key with
    | none => rw [getOp_miss fileId timeIndex now s hget]
    | some e => rw [getOp_hit fileId timeIndex now s e hget]
  · intro e hget
    rw [getOp_hit fileId timeIndex now s e hget]
    have hupd : mapGet (s.cache.map (fun p : Key × CacheEntry SliceData =>
        if p.1 = key then (p.1, ⟨e.data, now⟩) else p)) key =
        some ⟨e.data, now⟩ := mapGet_map_update _ hget
    refine ⟨rfl, hupd, ?_, ?_⟩
    · intro p hp hpk
      exact List.mem_map.mpr ⟨p, hp, by rw [if_neg hpk]⟩
    · intro ⟨q, hq, hqlt⟩
      set s' : CacheState SliceData :=
        { s with cache := s.cache.map (fun p : Key × CacheEntry SliceData =>
            if p.1 = key then (p.1, ⟨e.data, now⟩) else p) } with hs'
      have hnd' : (keysOf s'.cache).Nodup := by
        show (keysOf (s.cache.map _)).Nodup
        rw [keysOf_map_update]
        exact hnd
      have hnil' : ∀ p ∈ s'.cache, p.1 ≠ ([] : Key) := by
        intro p hp
        obtain ⟨p0, hp0, hp0e⟩ := List.mem_map.mp hp
        by_cases h0 : p0.1 = key
        · rw [← hp0e, if_pos h0]
          show p0.1 ≠ []
          exact hnil p0 hp0
        · rw [← hp0e, if_neg h0]
          exact hnil p0 hp0
      have hne : s'.cache ≠ [] := by
        intro hempty
        rw [hempty] at hq
        cases hq
      obtain ⟨kv, ev, hvm, hcache, _, hvmin⟩ :=
        evictLRUStep_spec SliceData.byteLength s' hnd' hnil' hne
      have hpe : (key, (⟨e.data, now⟩ : CacheEntry SliceData)) ∈ s'.cache :=
        mapGet_eq_some_mem hupd
      have hkv : kv ≠ key := by
        intro hkvk
        rw [hkvk] at hvm
        have hev : ev = ⟨e.data, now⟩ := entry_unique hnd' hvm hpe
        have := hvmin q hq
        rw [hev] at this
        show False
        have hnow : (⟨e.data, now⟩ : CacheEntry SliceData).lastAccess = now := rfl
        rw [hnow] at this
        omega
      rw [hcache]
      apply List.mem_filter.mpr
      refine ⟨hpe, ?_⟩
      simp only [decide_not, Bool.not_eq_true', decide_eq_false_iff_not]
      exact fun hc => hkv hc.symm

end SliceCache

end Lunagis

namespace Lunagis

namespace SliceCache

end SliceCache

end Lunagis

namespace Lunagis

namespace SliceCache


/-- Witness for `getCachedSlice_frame`: probing dataset `u` (a hit) at
time 20 while `v`'s entry is older. -/
theorem getCachedSlice_frame_witness :
    ((keysOf probeState.cache).Nodup ∧
      (∀ p ∈ probeState.cache, p.1 ≠ ([] : Key))) ∧
    (netcdfGetCachedSlice "u".toList 0 20 probeState =
      getOp "u".toList 0 20 probeState ∧
    npyGetCachedSlice "u".toList 0 20 probeState =
      getOp "u".toList 0 20 probeState ∧
    keysOf (getOp "u".toList 0 20 probeState).1.cache =
      keysOf probeState.cache ∧
    (getOp "u".toList 0 20 probeState).1.currentSize =
      probeState.currentSize ∧
    (mapGet probeState.cache (getKey "u".toList 0) = none →
      getOp "u".toList 0 20 probeState = (probeState, none)) ∧
    ∀ e, mapGet probeState.cache (getKey "u".toList 0) = some e →
      (getOp "u".toList 0 20 probeState).2 = some e.data ∧
      mapGet (getOp "u".toList 0 20 probeState).1.cache
        (getKey "u".toList 0) = some ⟨e.data, 20⟩ ∧
      (∀ p ∈ probeState.cache, p.1 ≠ getKey "u".toList 0 →
        p ∈ (getOp "u".toList 0 20 probeState).1.cache) ∧
      ((∃ q ∈ (getOp "u".toList 0 20 probeState).1.cache,
          q.2.lastAccess < 20) →
        (getKey "u".toList 0, (⟨e.data, 20⟩ : CacheEntry SliceData)) ∈
          (evictLRUStep SliceData.byteLength
            (getOp "u".toList 0 20 probeState).1).cache)) :=
  ⟨⟨by decide, by decide⟩,
    getCachedSlice_frame "u".toList 0 20 probeState (by decide) (by decide)⟩

end SliceCache

end Lunagis

namespace Lunagis

/-- C8 counterexample — `NetCDFLazyDataset.getSlice` performs no time-index
validation: for a dataset of declared shape `time = 4` whose backing
reader happens to return data for any requested hyperslab, `getSlice(7)`
(out of `[0, 4)`) succeeds and returns that data instead of failing with
an `OutOfRange` error — the source contains no such error kind at all. -/
theorem netcdfGetSlice_no_out_of_range :
    ¬ (7 < 4) ∧
    (netcdfGetSlice (ε := Unit) "f".toList "temp".toList
        (fun _ => .ok (.f32 [0, 0, 0, 0])) 7 1 (SliceCache.empty SliceData)).2 =
      .ok (.f32 [0, 0, 0, 0]) :=
  ⟨by omega, rfl⟩

/-- C8 (amended) — `getSlice(t)` never range-checks `t`: on a cache miss it
forwards the read for exactly the requested `t` to the backing reader
regardless of the declared time extent, propagates the reader's exception
unchanged (no `OutOfRange`/`IOError` error kinds exist in the code), and on
a successful read returns the decoded slice and caches it. -/
theorem netcdfGetSlice_forwards {ε : Type} (filename dataVarName : Key)
    (backend : Nat → Except ε RawData) (timeIndex now : Nat)
    (s : CacheState SliceData)
    (hmiss : SliceCache.mapGet s.cache
      (SliceCache.getKey filename timeIndex) = none) :
    (∀ err, backend timeIndex = .error err →
      netcdfGetSlice filename dataVarName backend timeIndex now s =
        (s, .error err)) ∧
    (∀ raw, backend timeIndex = .ok raw →
      netcdfGetSlice filename dataVarName backend timeIndex now s =
        (SliceCache.setOp SliceData.byteLength filename timeIndex
            (netcdfDecode dataVarName raw) now s,
          .ok (netcdfDecode dataVarName raw))) := by
  have hstep : netcdfGetSlice filename dataVarName backend timeIndex now s =
      (match backend timeIndex with
        | .error e => (s, .error e)
        | .ok rawData =>
          (SliceCache.setOp SliceData.byteLength filename timeIndex
              (netcdfDecode dataVarName rawData) now s,
            .ok (netcdfDecode dataVarName rawData))) := by
    unfold netcdfGetSlice
    rw [SliceCache.getOp_miss filename timeIndex now s hmiss]
  constructor
  · intro err herr
    rw [hstep, herr]
  · intro raw hok
    rw [hstep, hok]

/-- Witness for `netcdfGetSlice_forwards`: empty cache, a reader that
succeeds with a constant slice, and a reader that always fails. -/
theorem netcdfGetSlice_forwards_witness :
    SliceCache.mapGet (SliceCache.empty SliceData).cache
      (SliceCache.getKey "f".toList 7) = none ∧
    ((∀ err, (fun _ : Nat => (.ok (.f32 [1, 2]) : Except Unit RawData)) 7 = .error err →
      netcdfGetSlice "f".toList "temp".toList
          (fun _ => (.ok (.f32 [1, 2]) : Except Unit RawData)) 7 1
          (SliceCache.empty SliceData) =
        (SliceCache.empty SliceData, .error err)) ∧
    (∀ raw, (fun _ : Nat => (.ok (.f32 [1, 2]) : Except Unit RawData)) 7 = .ok raw →
      netcdfGetSlice "f".toList "temp".toList
          (fun _ => (.ok (.f32 [1, 2]) : Except Unit RawData)) 7 1
          (SliceCache.empty SliceData) =
        (SliceCache.setOp SliceData.byteLength "f".toList 7
            (netcdfDecode "temp".toList raw) 1 (SliceCache.empty SliceData),
          .ok (netcdfDecode "temp".toList raw)))) :=
  ⟨rfl, netcdfGetSlice_forwards "f".toList "temp".toList
    (fun _ => (.ok (.f32 [1, 2]) : Except Unit RawData)) 7 1
    (SliceCache.empty SliceData) rfl⟩

end Lunagis
